import Mathlib

/-!
Verification of the teams-export repository core against its specification.

The definitions below are shallow embeddings of the Python sources:
  * `graph.py` — `GraphClient._paginate` and `GraphClient._request_with_retry`,
  * `exporter.py` — `_within_range`, `_transform_message`, `_normalise_filename`,
    `_extract_attachment_urls`, `_download_attachments`, `_write_json`, `export_chat`
    (the filename/sort/filter parts),
  * `dates.py` — `resolve_range` (the window construction),
  * the Python `json` module's `dumps`/`loads` pair as used by `_write_json`.

Machine-level details that do not affect the claims (TLS, sessions, actual disk
writes) are represented by explicit data: a pagination run is driven by the list
of page payloads the server would return, a retry run by the list of scripted
HTTP outcomes, and an attachment run by a download oracle.
-/

namespace TeamsExport

/-! ## Pagination (`graph.py`, `GraphClient._paginate`)

A page models one JSON envelope returned by the server: its `value` array and
the optional `@odata.nextLink` continuation URL.  A pagination run is driven by
the successive payloads the server returns (`pages`); responses are modeled
post-retry as successful payloads, since the `status_code >= 400` branch raises
and none of the claims about `_paginate` concerns it. -/

/-- Query parameters of a GET request (`params` in `graph.py`). -/
def QueryParams : Type := List (String × String)

instance : DecidableEq QueryParams := by
  unfold QueryParams
  infer_instance

/-- One page payload: the `value` array and the optional `@odata.nextLink`. -/
structure Page (α : Type) where
  value : List α
  nextLink : Option String
deriving DecidableEq

/-- The observable outcome of a `_paginate` run: the yielded items, the
cumulative counts passed to `progress_callback` (one entry per invocation, in
order), and the GET requests issued (URL and the query parameters attached). -/
structure PagResult (α : Type) where
  yielded : List α
  progressCalls : List Nat
  requests : List (String × Option QueryParams)

/-- `if stop_condition and stop_condition(item)` — `None` is falsy. -/
def stopHit {α : Type} (stop : Option (α → Bool)) (x : α) : Bool :=
  match stop with
  | none => false
  | some p => p x

/-- `if max_items and count >= max_items` — both `None` and `0` are falsy, so a
zero limit never halts. -/
def maxHit (maxItems : Option Nat) (count : Nat) : Bool :=
  match maxItems with
  | none => false
  | some m => decide (m ≠ 0) && decide (m ≤ count)

/-- The `for item in payload.get("value", [])` loop body of `_paginate`:
yields each item, increments `count`, and returns early when the stop
condition fires on the yielded item or the item budget is reached.
Returns the yielded items, the final count, and whether the loop returned
early (halting the whole pagination). -/
def consumeValue {α : Type} (stop : Option (α → Bool)) (maxItems : Option Nat) :
    Nat → List α → List α × Nat × Bool
  | count, [] => ([], count, false)
  | count, x :: xs =>
    let c := count + 1
    if stopHit stop x then ([x], c, true)
    else if maxHit maxItems c then ([x], c, true)
    else
      let r := consumeValue stop maxItems c xs
      (x :: r.1, r.2.1, r.2.2)

/-- The `while url:` loop of `_paginate`, driven by the list of page payloads
the server returns for the successive requests.  `params` is forwarded to the
first request only (`params = None` after the first request); continuation
requests use the page's `nextLink` verbatim.  The progress callback is invoked
once after a page's item loop completes without an early return; an early
return (stop condition or item budget) skips it and fetches no further page.
The `[]` branch (a request issued with no scripted payload) is ruled out in
the theorems by `chainOk`. -/
def paginateGo {α : Type} (stop : Option (α → Bool)) (maxItems : Option Nat) :
    Nat → String → Option QueryParams → List (Page α) → PagResult α
  | _, url, params, [] => ⟨[], [], [(url, params)]⟩
  | count, url, params, page :: rest =>
    let r := consumeValue stop maxItems count page.value
    if r.2.2 then
      ⟨r.1, [], [(url, params)]⟩
    else
      match page.nextLink with
      | none => ⟨r.1, [r.2.1], [(url, params)]⟩
      | some link =>
        let tail := paginateGo stop maxItems r.2.1 link none rest
        ⟨r.1 ++ tail.yielded, r.2.1 :: tail.progressCalls,
          (url, params) :: tail.requests⟩

/-- `GraphClient._paginate(url, params, stop_condition=…, progress_callback=…,
max_items=…)`, with `count = 0` initially. -/
def paginate {α : Type} (stop : Option (α → Bool)) (maxItems : Option Nat)
    (url : String) (params : Option QueryParams) (pages : List (Page α)) :
    PagResult α :=
  paginateGo stop maxItems 0 url params pages

/-- The page script is consistent with the while-loop: there is a payload for
the first request, and a payload for each continuation request — i.e. a page
carries a `nextLink` exactly when a further page follows it in the script. -/
def chainOk {α : Type} : List (Page α) → Bool
  | [] => false
  | page :: rest =>
    match page.nextLink, rest with
    | none, [] => true
    | some _, _ :: _ => chainOk rest
    | _, _ => false

/-- `GraphClient.list_chats(limit=…, progress_callback=…)`: paginates
`{base}/me/chats` with `$expand=members` and `$top=50`, no stop condition, and
`max_items = limit`. -/
def listChats {α : Type} (baseUrl : String) (limit : Option Nat)
    (pages : List (Page α)) : PagResult α :=
  paginate none limit (baseUrl ++ "/me/chats")
    (some [("$expand", "members"), ("$top", "50")]) pages

/-! ### Specification-side quantities for pagination

These definitions restate, in the spec's vocabulary, which prefix of the item
stream a run yields, how many pages it fetches and which progress calls it
makes.  They are compared with `paginate` in the claim theorems. -/

/-- The flattened item stream: the concatenation of the `value` arrays of the
successive pages, in order. -/
def joinPages {α : Type} (pages : List (Page α)) : List α :=
  (pages.map Page.value).flatten

/-- The 1-based position of the first item on which the stop-condition returns
true, if any. -/
def stopIdx {α : Type} (stop : Option (α → Bool)) : List α → Option Nat
  | [] => none
  | x :: xs => if stopHit stop x then some 1 else (stopIdx stop xs).map (· + 1)

/-- The number of further items a partially consumed `max_items` budget still
admits: `some (m - count)` for a positive limit `m`, and no bound at all for
`None` or `0` (both falsy in `if max_items and count >= max_items`). -/
def budget (maxItems : Option Nat) (count : Nat) : Option Nat :=
  match maxItems with
  | none => none
  | some m => if m = 0 then none else some (m - count)

/-- Minimum of two optional bounds (a missing bound does not constrain). -/
def omin : Option Nat → Option Nat → Option Nat
  | some a, some b => some (min a b)
  | some a, none => some a
  | none, b => b

/-- The items actually yielded under an optional halt bound: all `len` items
when no bound binds, else exactly the bound (the halting item included). -/
def clipLen (bnd : Option Nat) (len : Nat) : Nat :=
  match bnd with
  | some n => min n len
  | none => len

/-- Whether the halt bound is reached within `len` available items. -/
def haltsIn (bnd : Option Nat) (len : Nat) : Bool :=
  match bnd with
  | some n => decide (n ≤ len)
  | none => false

theorem stopIdx_pos {α : Type} (stop : Option (α → Bool)) (xs : List α) (n : Nat)
    (h : stopIdx stop xs = some n) : 1 ≤ n := by
  induction xs generalizing n with
  | nil => simp [stopIdx] at h
  | cons x xs ih =>
    simp only [stopIdx] at h
    by_cases hx : stopHit stop x = true
    · simp [hx] at h
      omega
    · simp [hx] at h
      obtain ⟨m, _, hm⟩ := h
      omega

theorem stopIdx_le_length {α : Type} (stop : Option (α → Bool)) (xs : List α)
    (n : Nat) (h : stopIdx stop xs = some n) : n ≤ xs.length := by
  induction xs generalizing n with
  | nil => simp [stopIdx] at h
  | cons x xs ih =>
    simp only [stopIdx] at h
    by_cases hx : stopHit stop x = true
    · simp [hx] at h
      simp [← h]
    · simp [hx] at h
      obtain ⟨m, hm, hmn⟩ := h
      have := ih m hm
      simp
      omega

/-- `consumeValue` yields exactly the prefix of the page's `value` array cut at
the halt bound (stop position or remaining item budget, whichever is smaller),
reports the updated count, and halts iff the bound falls inside the page. -/
theorem consumeValue_spec {α : Type} (stop : Option (α → Bool))
    (maxItems : Option Nat) (xs : List α) (count : Nat)
    (hinv : ∀ m, maxItems = some m → 0 < m → count < m) :
    consumeValue stop maxItems count xs =
      (xs.take (clipLen (omin (stopIdx stop xs) (budget maxItems count)) xs.length),
        count + clipLen (omin (stopIdx stop xs) (budget maxItems count)) xs.length,
        haltsIn (omin (stopIdx stop xs) (budget maxItems count)) xs.length) := by
  induction xs generalizing count with
  | nil =>
    cases maxItems with
    | none => simp [consumeValue, stopIdx, budget, omin, clipLen, haltsIn]
    | some m =>
      by_cases hm : m = 0
      · simp [consumeValue, stopIdx, budget, omin, clipLen, haltsIn, hm]
      · have hc : count < m := hinv m rfl (by omega)
        simp [consumeValue, stopIdx, budget, omin, clipLen, haltsIn, hm]
        omega
  | cons x xs ih =>
    by_cases hx : stopHit stop x = true
    · -- the stop-condition fires on the head item
      have hbnd : omin (stopIdx stop (x :: xs)) (budget maxItems count) = some 1 := by
        cases maxItems with
        | none => simp [stopIdx, hx, budget, omin]
        | some m =>
          by_cases hm : m = 0
          · simp [stopIdx, hx, budget, omin, hm]
          · have hc : count < m := hinv m rfl (by omega)
            simp [stopIdx, hx, budget, omin, hm]
            omega
      simp [consumeValue, hx, hbnd, clipLen, haltsIn]
    · by_cases hmax : maxHit maxItems (count + 1) = true
      · -- the item budget is exhausted by the head item
        obtain ⟨m, hm, hm0, hmc⟩ : ∃ m, maxItems = some m ∧ m ≠ 0 ∧ m ≤ count + 1 := by
          cases maxItems with
          | none => simp [maxHit] at hmax
          | some m =>
            simp [maxHit] at hmax
            exact ⟨m, rfl, hmax.1, hmax.2⟩
        have hc : count < m := hinv m hm (by omega)
        have hbud : budget maxItems count = some 1 := by
          simp [budget, hm, hm0]
          omega
        have hbnd : omin (stopIdx stop (x :: xs)) (budget maxItems count) = some 1 := by
          rw [hbud]
          simp only [stopIdx, hx, if_neg, Bool.false_eq_true, not_false_iff, ite_false]
          cases h : (stopIdx stop xs).map (· + 1) with
          | none => simp [omin]
          | some k =>
            simp [omin]
            simp at h
            obtain ⟨j, hj, hjk⟩ := h
            omega
        simp [consumeValue, hx, hmax, hbnd, clipLen, haltsIn]
      · -- neither halts on the head item: recurse
        have hinv2 : ∀ m, maxItems = some m → 0 < m → count + 1 < m := by
          intro m hm hm0
          cases maxItems with
          | none => exact absurd hm (by simp)
          | some k =>
            obtain rfl : k = m := by injection hm
            simp [maxHit, Nat.ne_of_gt hm0] at hmax
            omega
        have hshift :
            omin (stopIdx stop (x :: xs)) (budget maxItems count) =
              (omin (stopIdx stop xs) (budget maxItems (count + 1))).map (· + 1) := by
          have hs : stopIdx stop (x :: xs) = (stopIdx stop xs).map (· + 1) := by
            simp [stopIdx, hx]
          rw [hs]
          cases maxItems with
          | none =>
            simp [budget]
            cases stopIdx stop xs <;> simp [omin]
          | some m =>
            by_cases hm : m = 0
            · simp [budget, hm]
              cases stopIdx stop xs <;> simp [omin]
            · have hc : count + 1 < m := hinv2 m rfl (by omega)
              have h1 : budget (some m) count = some (m - count) := by simp [budget, hm]
              have h2 : budget (some m) (count + 1) = some (m - (count + 1)) := by
                simp [budget, hm]
              rw [h1, h2]
              cases stopIdx stop xs with
              | none => simp [omin]; omega
              | some k => simp [omin]; omega
        rw [consumeValue]
        simp only [hx, Bool.false_eq_true, if_false, hmax, ih (count + 1) hinv2, hshift]
        cases h : omin (stopIdx stop xs) (budget maxItems (count + 1)) with
        | none => simp [clipLen, haltsIn, List.take_succ_cons, Nat.add_comm, Nat.add_assoc,
            Nat.add_left_comm]
        | some n =>
          have hmin : clipLen (some (n + 1)) (x :: xs).length =
              clipLen (some n) xs.length + 1 := by
            simp [clipLen]
            omega
          have hhalt : haltsIn (some (n + 1)) (x :: xs).length =
              haltsIn (some n) xs.length := by
            simp [haltsIn, Nat.succ_le_succ_iff]
          simp only [Option.map_some']
          rw [hmin, hhalt]
          simp [List.take_succ_cons]
          omega

/-- Cumulative item counts at successive page boundaries, starting from
`count`: entry `i` is the total count after pages `0..i` are consumed. -/
def cumCounts {α : Type} : Nat → List (Page α) → List Nat
  | _, [] => []
  | c, p :: rest => (c + p.value.length) :: cumCounts (c + p.value.length) rest

/-- The number of pages needed to reach the `n`-th item (1-based) of the
flattened stream: the page holding that item and all pages before it. -/
def coverPages {α : Type} : List (Page α) → Nat → Nat
  | [], _ => 0
  | p :: rest, n => if n ≤ p.value.length then 1 else 1 + coverPages rest (n - p.value.length)

/-- The first `k` GET requests of a pagination run: the initial URL with the
caller's query parameters, then each page's continuation link verbatim with no
parameters. -/
def reqList {α : Type} : String → Option QueryParams → List (Page α) → Nat →
    List (String × Option QueryParams)
  | _, _, _, 0 => []
  | url, params, [], _ + 1 => [(url, params)]
  | url, params, p :: rest, k + 1 =>
    (url, params) ::
      match p.nextLink with
      | some link => reqList link none rest k
      | none => []

/-- The behaviour `_paginate` is claimed to have, assembled from the
spec-side quantities: the yielded items are the prefix of the flattened stream
cut at the halt bound; one progress call per page consumed before the halting
page; one request per page fetched, the continuation requests carrying no
parameters. -/
def pagSpec {α : Type} (stop : Option (α → Bool)) (maxItems : Option Nat)
    (count : Nat) (url : String) (params : Option QueryParams)
    (pages : List (Page α)) : PagResult α :=
  let flat := joinPages pages
  let bnd := omin (stopIdx stop flat) (budget maxItems count)
  let len := flat.length
  { yielded := flat.take (clipLen bnd len)
  , progressCalls :=
      if haltsIn bnd len then
        (cumCounts count pages).take (coverPages pages (bnd.getD 0) - 1)
      else cumCounts count pages
  , requests :=
      reqList url params pages
        (if haltsIn bnd len then coverPages pages (bnd.getD 0) else pages.length) }

theorem joinPages_nil {α : Type} : joinPages ([] : List (Page α)) = [] := rfl

theorem joinPages_cons {α : Type} (p : Page α) (rest : List (Page α)) :
    joinPages (p :: rest) = p.value ++ joinPages rest := by
  simp [joinPages]

theorem stopIdx_append {α : Type} (stop : Option (α → Bool)) (xs ys : List α) :
    stopIdx stop (xs ++ ys) =
      match stopIdx stop xs with
      | some n => some n
      | none => (stopIdx stop ys).map (· + xs.length) := by
  induction xs with
  | nil => cases h : stopIdx stop ys <;> simp [stopIdx, h]
  | cons x xs ih =>
    by_cases hx : stopHit stop x = true
    · simp [stopIdx, hx]
    · simp only [List.cons_append, stopIdx, hx, Bool.false_eq_true, if_false,
        List.append_eq]
      rw [ih]
      cases hxs : stopIdx stop xs with
      | some n => simp
      | none =>
        cases stopIdx stop ys with
        | none => simp
        | some m => simp [List.length_cons]; omega

theorem clipLen_of_not_halts (bnd : Option Nat) (len : Nat)
    (h : haltsIn bnd len = false) : clipLen bnd len = len := by
  cases bnd with
  | none => rfl
  | some n => simp [haltsIn] at h; simp [clipLen]; omega

theorem haltsIn_map_add (bnd : Option Nat) (c len : Nat) :
    haltsIn (bnd.map (· + c)) (c + len) = haltsIn bnd len := by
  cases bnd with
  | none => rfl
  | some n => simp [haltsIn]; omega

theorem clipLen_map_add (bnd : Option Nat) (c len : Nat) :
    clipLen (bnd.map (· + c)) (c + len) = c + clipLen bnd len := by
  cases bnd with
  | none => rfl
  | some n => simp [clipLen]; omega

theorem take_len_add_append {α : Type} (l₁ l₂ : List α) (k : Nat) :
    (l₁ ++ l₂).take (l₁.length + k) = l₁ ++ l₂.take k := by
  induction l₁ with
  | nil => simp
  | cons x xs ih => simp [List.take_succ_cons, Nat.succ_add, ih]

theorem take_append_of_leapp {α : Type} (l₁ l₂ : List α) (n : Nat)
    (h : n ≤ l₁.length) : (l₁ ++ l₂).take n = l₁.take n := by
  induction l₁ generalizing n with
  | nil => simp at h; simp [h]
  | cons x xs ih =>
    cases n with
    | zero => simp
    | succ k =>
      simp only [List.cons_append, List.take_succ_cons]
      rw [ih]
      simp at h
      omega

theorem coverPages_pos {α : Type} (p : Page α) (rest : List (Page α)) (n : Nat) :
    1 ≤ coverPages (p :: rest) n := by
  by_cases h : n ≤ p.value.length <;> simp [coverPages, h]

theorem budget_ge_one (maxItems : Option Nat) (count b : Nat)
    (hinv : ∀ m, maxItems = some m → 0 < m → count < m)
    (h : budget maxItems count = some b) : 1 ≤ b := by
  cases maxItems with
  | none => simp [budget] at h
  | some m =>
    by_cases hm : m = 0
    · simp [budget, hm] at h
    · have := hinv m rfl (by omega)
      simp [budget, hm] at h
      omega

theorem omin_ge (a b : Option Nat) (t n : Nat)
    (ha : ∀ k, a = some k → t ≤ k) (hb : ∀ k, b = some k → t ≤ k)
    (h : omin a b = some n) : t ≤ n := by
  cases a with
  | none =>
    cases b with
    | none => simp [omin] at h
    | some y => simp [omin] at h; exact h ▸ hb y rfl
  | some x =>
    cases b with
    | none =>
      simp [omin] at h
      exact h ▸ ha x rfl
    | some y =>
      simp [omin] at h
      have h1 := ha x rfl
      have h2 := hb y rfl
      omega

/-- Main characterization of `_paginate`: on a consistent page script, the run
produces exactly the spec-side outcome `pagSpec`. -/
theorem paginateGo_spec {α : Type} (stop : Option (α → Bool)) (maxItems : Option Nat) :
    ∀ (pages : List (Page α)) (count : Nat) (url : String)
      (params : Option QueryParams),
    chainOk pages = true →
    (∀ m, maxItems = some m → 0 < m → count < m) →
    paginateGo stop maxItems count url params pages =
      pagSpec stop maxItems count url params pages := by
  intro pages
  induction pages with
  | nil =>
    intro count url params hchain _
    simp [chainOk] at hchain
  | cons p rest ih =>
    intro count url params hchain hinv
    have hcons := consumeValue_spec stop maxItems p.value count hinv
    by_cases hhalt :
        haltsIn (omin (stopIdx stop p.value) (budget maxItems count))
          p.value.length = true
    · -- the run halts within this page
      obtain ⟨n, hn⟩ :
          ∃ n, omin (stopIdx stop p.value) (budget maxItems count) = some n := by
        cases h : omin (stopIdx stop p.value) (budget maxItems count) with
        | none => rw [h] at hhalt; simp [haltsIn] at hhalt
        | some n => exact ⟨n, rfl⟩
      have hnlen : n ≤ p.value.length := by
        rw [hn] at hhalt
        simpa [haltsIn] using hhalt
      have hn1 : 1 ≤ n :=
        omin_ge _ _ _ _ (fun k hk => stopIdx_pos stop p.value k hk)
          (fun k hk => budget_ge_one maxItems count k hinv hk) hn
      have hglob :
          omin (stopIdx stop (joinPages (p :: rest))) (budget maxItems count) =
            some n := by
        rw [joinPages_cons, stopIdx_append]
        cases hs : stopIdx stop p.value with
        | some k =>
          rw [hs] at hn
          simpa using hn
        | none =>
          rw [hs] at hn
          simp only [omin] at hn
          cases hfr : stopIdx stop (joinPages rest) with
          | none => simpa [omin] using hn
          | some j =>
            have hj : 1 ≤ j := stopIdx_pos _ _ _ hfr
            rw [hn]
            simp [omin]
            omega
      have hclip : clipLen (some n) p.value.length = n := by
        simp [clipLen]
        omega
      have hhb : haltsIn (some n) p.value.length = true := by
        simpa [haltsIn] using hnlen
      rw [hn, hclip, hhb] at hcons
      have hL : n ≤ (joinPages (p :: rest)).length := by
        rw [joinPages_cons, List.length_append]
        omega
      have hclipL : clipLen (some n) (joinPages (p :: rest)).length = n := by
        simp [clipLen]
        omega
      have hhbL : haltsIn (some n) (joinPages (p :: rest)).length = true := by
        simpa [haltsIn] using hL
      have hcov : coverPages (p :: rest) n = 1 := by
        simp [coverPages, hnlen]
      have htake : (joinPages (p :: rest)).take n = p.value.take n := by
        rw [joinPages_cons]
        exact take_append_of_leapp _ _ n hnlen
      have hreq : reqList url params (p :: rest) 1 = [(url, params)] := by
        cases hnl : p.nextLink <;> simp [reqList, hnl]
      simp only [paginateGo, hcons, pagSpec, hglob, hclipL, hhbL, if_true,
        Option.getD_some, hcov, htake, hreq, List.take_zero, Nat.sub_self]
    · -- this page's item loop runs to completion
      simp only [Bool.not_eq_true] at hhalt
      have hclipfull :
          clipLen (omin (stopIdx stop p.value) (budget maxItems count))
            p.value.length = p.value.length :=
        clipLen_of_not_halts _ _ hhalt
      have hs0 : stopIdx stop p.value = none := by
        cases hs : stopIdx stop p.value with
        | none => rfl
        | some k =>
          exfalso
          have hklen : k ≤ p.value.length := stopIdx_le_length _ _ _ hs
          have : ∃ n, omin (some k) (budget maxItems count) = some n ∧ n ≤ k := by
            cases hb : budget maxItems count with
            | none => exact ⟨k, by simp [omin], le_refl k⟩
            | some b => exact ⟨min k b, by simp [omin], Nat.min_le_left _ _⟩
          obtain ⟨n, hn, hnk⟩ := this
          rw [hs, hn] at hhalt
          simp [haltsIn] at hhalt
          omega
      rw [hclipfull, List.take_length] at hcons
      cases hl : p.nextLink with
      | none =>
        cases rest with
        | cons q r2 => simp [chainOk, hl] at hchain
        | nil =>
          have hBP :
              omin (stopIdx stop (joinPages [p])) (budget maxItems count) =
                omin (stopIdx stop p.value) (budget maxItems count) := by
            rw [joinPages_cons, joinPages_nil, List.append_nil]
          have hLP : (joinPages [p]).length = p.value.length := by
            rw [joinPages_cons, joinPages_nil, List.append_nil]
          have hfj : joinPages [p] = p.value := by
            rw [joinPages_cons, joinPages_nil, List.append_nil]
          simp only [paginateGo, hcons, hl, pagSpec, hfj, hclipfull,
            List.take_length, hhalt, Bool.false_eq_true, if_false, cumCounts,
            List.length_singleton, reqList]
      | some link =>
        cases rest with
        | nil => simp [chainOk, hl] at hchain
        | cons q r2 =>
          have hchain2 : chainOk (q :: r2) = true := by
            simpa [chainOk, hl] using hchain
          have hinv2 :
              ∀ m, maxItems = some m → 0 < m →
                count + p.value.length < m := by
            intro m hm hm0
            have hb : budget maxItems count = some (m - count) := by
              rw [hm]
              simp [budget]
              omega
            rw [hs0, hb] at hhalt
            simp only [omin] at hhalt
            simp [haltsIn] at hhalt
            have := hinv m hm hm0
            omega
          have htail := ih (count + p.value.length) link none hchain2 hinv2
          have hBmap :
              omin (stopIdx stop (joinPages (p :: q :: r2)))
                  (budget maxItems count) =
                (omin (stopIdx stop (joinPages (q :: r2)))
                    (budget maxItems (count + p.value.length))).map
                  (· + p.value.length) := by
            rw [joinPages_cons, stopIdx_append, hs0]
            cases maxItems with
            | none =>
              simp only [budget]
              cases stopIdx stop (joinPages (q :: r2)) <;> simp [omin]
            | some m =>
              by_cases hm : m = 0
              · simp only [budget, hm, if_true, reduceIte]
                cases stopIdx stop (joinPages (q :: r2)) <;> simp [omin]
              · have hcm : count + p.value.length < m :=
                  hinv2 m rfl (by omega)
                have h1 : budget (some m) count = some (m - count) := by
                  simp [budget, hm]
                have h2 : budget (some m) (count + p.value.length) =
                    some (m - (count + p.value.length)) := by
                  simp [budget, hm]
                rw [h1, h2]
                cases stopIdx stop (joinPages (q :: r2)) with
                | none => simp [omin]; omega
                | some j => simp [omin]; omega
          -- abbreviations for the tail quantities
          have hLsum : (joinPages (p :: q :: r2)).length =
              p.value.length + (joinPages (q :: r2)).length := by
            rw [joinPages_cons, List.length_append]
          have hhshift :
              haltsIn (omin (stopIdx stop (joinPages (p :: q :: r2)))
                  (budget maxItems count)) (joinPages (p :: q :: r2)).length =
                haltsIn (omin (stopIdx stop (joinPages (q :: r2)))
                    (budget maxItems (count + p.value.length)))
                  (joinPages (q :: r2)).length := by
            rw [hBmap, hLsum]
            exact haltsIn_map_add _ _ _
          have hclipshift :
              clipLen (omin (stopIdx stop (joinPages (p :: q :: r2)))
                  (budget maxItems count)) (joinPages (p :: q :: r2)).length =
                p.value.length +
                  clipLen (omin (stopIdx stop (joinPages (q :: r2)))
                      (budget maxItems (count + p.value.length)))
                    (joinPages (q :: r2)).length := by
            rw [hBmap, hLsum]
            exact clipLen_map_add _ _ _
          have htakeshift :
              (joinPages (p :: q :: r2)).take
                  (clipLen (omin (stopIdx stop (joinPages (p :: q :: r2)))
                      (budget maxItems count))
                    (joinPages (p :: q :: r2)).length) =
                p.value ++ (joinPages (q :: r2)).take
                  (clipLen (omin (stopIdx stop (joinPages (q :: r2)))
                      (budget maxItems (count + p.value.length)))
                    (joinPages (q :: r2)).length) := by
            rw [hclipshift,
              show joinPages (p :: q :: r2) = p.value ++ joinPages (q :: r2) from
                joinPages_cons p (q :: r2),
              take_len_add_append]
          have hstep : paginateGo stop maxItems count url params (p :: q :: r2) =
              ⟨p.value ++ (paginateGo stop maxItems (count + p.value.length)
                  link none (q :: r2)).yielded,
                (count + p.value.length) :: (paginateGo stop maxItems
                  (count + p.value.length) link none (q :: r2)).progressCalls,
                (url, params) :: (paginateGo stop maxItems
                  (count + p.value.length) link none (q :: r2)).requests⟩ := by
            conv_lhs => rw [paginateGo]
            simp only [hcons, hhalt, Bool.false_eq_true, if_false, hl]
          rw [hstep, htail]
          by_cases hhr :
              haltsIn (omin (stopIdx stop (joinPages (q :: r2)))
                  (budget maxItems (count + p.value.length)))
                (joinPages (q :: r2)).length = true
          · -- the tail halts: no progress call for the halting page,
            -- all later pages unfetched
            obtain ⟨nr, hnr⟩ :
                ∃ nr, omin (stopIdx stop (joinPages (q :: r2)))
                    (budget maxItems (count + p.value.length)) = some nr := by
              cases h : omin (stopIdx stop (joinPages (q :: r2)))
                  (budget maxItems (count + p.value.length)) with
              | none => rw [h] at hhr; simp [haltsIn] at hhr
              | some nr => exact ⟨nr, rfl⟩
            have hnr1 : 1 ≤ nr :=
              omin_ge _ _ _ _ (fun k hk => stopIdx_pos _ _ k hk)
                (fun k hk => budget_ge_one maxItems _ k hinv2 hk) hnr
            have hcovshift :
                coverPages (p :: q :: r2) (nr + p.value.length) =
                  1 + coverPages (q :: r2) nr := by
              have hexp : coverPages (p :: q :: r2) (nr + p.value.length) =
                  if nr + p.value.length ≤ p.value.length then 1
                  else 1 + coverPages (q :: r2)
                    (nr + p.value.length - p.value.length) := rfl
              have hngt : ¬ (nr + p.value.length ≤ p.value.length) := by omega
              rw [hexp, if_neg hngt,
                show nr + p.value.length - p.value.length = nr by omega]
            have hcovpos : 1 ≤ coverPages (q :: r2) nr := coverPages_pos q r2 nr
            have hgetD :
                (omin (stopIdx stop (joinPages (p :: q :: r2)))
                    (budget maxItems count)).getD 0 = nr + p.value.length := by
              rw [hBmap, hnr]
              rfl
            simp only [pagSpec, PagResult.mk.injEq]
            refine ⟨htakeshift.symm, ?_, ?_⟩
            · rw [hhshift, hhr]
              simp only [reduceIte, hnr, Option.getD_some, hgetD, hcovshift]
              simp only [cumCounts]
              rw [show 1 + coverPages (q :: r2) nr - 1 =
                  (coverPages (q :: r2) nr - 1) + 1 by omega]
              rw [List.take_succ_cons]
            · rw [hhshift, hhr]
              simp only [reduceIte, hnr, Option.getD_some, hgetD, hcovshift]
              rw [show 1 + coverPages (q :: r2) nr =
                  coverPages (q :: r2) nr + 1 by omega]
              simp [reqList, hl]
          · -- the tail does not halt: a progress call per page, all fetched
            simp only [Bool.not_eq_true] at hhr
            simp only [pagSpec, PagResult.mk.injEq]
            refine ⟨htakeshift.symm, ?_, ?_⟩
            · rw [hhshift, hhr]
              simp only [Bool.false_eq_true, if_false]
              simp [cumCounts]
            · rw [hhshift, hhr]
              simp only [Bool.false_eq_true, if_false, List.length_cons]
              simp [reqList, hl]

theorem stopIdx_none {α : Type} (xs : List α) : stopIdx none xs = none := by
  induction xs with
  | nil => rfl
  | cons x xs ih => simp [stopIdx, stopHit, ih]

theorem budget_zero (maxItems : Option Nat) (h : maxItems ≠ some 0) :
    budget maxItems 0 = maxItems := by
  cases maxItems with
  | none => rfl
  | some m =>
    have hm : m ≠ 0 := fun hc => h (by rw [hc])
    simp [budget, hm]

theorem reqList_none_snd {α : Type} :
    ∀ (pages : List (Page α)) (url : String) (k : Nat),
    (reqList url none pages k).map Prod.snd =
      List.replicate (reqList url none pages k).length none := by
  intro pages
  induction pages with
  | nil =>
    intro url k
    cases k <;> simp [reqList]
  | cons p rest ih =>
    intro url k
    cases k with
    | zero => simp [reqList]
    | succ k =>
      cases hnl : p.nextLink with
      | none => simp [reqList, hnl, List.replicate]
      | some link =>
        simp only [reqList, hnl, List.map_cons, List.length_cons]
        rw [ih link k]
        rfl

theorem reqList_snd {α : Type} (pages : List (Page α)) (url : String)
    (params : Option QueryParams) (k : Nat) (hk : 1 ≤ k) :
    (reqList url params pages k).map Prod.snd =
      params :: List.replicate ((reqList url params pages k).length - 1) none := by
  obtain ⟨k2, rfl⟩ : ∃ k2, k = k2 + 1 := ⟨k - 1, by omega⟩
  cases pages with
  | nil => simp [reqList]
  | cons p rest =>
    cases hnl : p.nextLink with
    | none => simp [reqList, hnl]
    | some link =>
      simp only [reqList, hnl, List.map_cons, List.length_cons,
        Nat.add_sub_cancel]
      rw [reqList_none_snd rest link k2]

theorem reqList_head {α : Type} (pages : List (Page α)) (url : String)
    (params : Option QueryParams) (k : Nat) (hk : 1 ≤ k) :
    ∃ t, reqList url params pages k = (url, params) :: t := by
  obtain ⟨k2, rfl⟩ : ∃ k2, k = k2 + 1 := ⟨k - 1, by omega⟩
  cases pages with
  | nil => exact ⟨[], rfl⟩
  | cons p rest => exact ⟨_, rfl⟩

theorem reqList_links {α : Type} :
    ∀ (pages : List (Page α)) (url : String) (params : Option QueryParams)
      (k i : Nat), i + 1 < (reqList url params pages k).length →
    (pages.get? i).bind Page.nextLink =
      ((reqList url params pages k).get? (i + 1)).map Prod.fst := by
  intro pages
  induction pages with
  | nil =>
    intro url params k i h
    cases k with
    | zero => simp [reqList] at h
    | succ k => simp [reqList] at h
  | cons p rest ih =>
    intro url params k i h
    cases k with
    | zero => simp [reqList] at h
    | succ k =>
      cases hnl : p.nextLink with
      | none =>
        exfalso
        simp [reqList, hnl] at h
      | some link =>
        have hexp : reqList url params (p :: rest) (k + 1) =
            (url, params) :: reqList link none rest k := by
          simp [reqList, hnl]
        rw [hexp] at h ⊢
        cases i with
        | zero =>
          simp only [List.get?_cons_zero, Option.some_bind, hnl,
            List.get?_cons_succ]
          have h2 : 1 ≤ k := by
            by_contra hc
            obtain rfl : k = 0 := by omega
            cases rest <;> simp [reqList] at h
          obtain ⟨t, ht⟩ := reqList_head rest link none k h2
          rw [ht]
          rfl
        | succ i =>
          simp only [List.get?_cons_succ]
          have h2 : i + 1 < (reqList link none rest k).length := by
            simpa using h
          exact ih link none k i h2

theorem coverPages_le_length {α : Type} :
    ∀ (pages : List (Page α)) (n : Nat), 1 ≤ n → n ≤ (joinPages pages).length →
    coverPages pages n ≤ pages.length := by
  intro pages
  induction pages with
  | nil => intro n h1 h2; simp [coverPages]
  | cons p rest ih =>
    intro n h1 h2
    rw [joinPages_cons, List.length_append] at h2
    by_cases hn : n ≤ p.value.length
    · simp [coverPages, hn]
    · simp only [coverPages, hn, if_false, List.length_cons]
      have := ih (n - p.value.length) (by omega) (by omega)
      omega

theorem reqList_length {α : Type} :
    ∀ (pages : List (Page α)) (url : String) (params : Option QueryParams)
      (k : Nat), chainOk pages = true → k ≤ pages.length →
    (reqList url params pages k).length = k := by
  intro pages
  induction pages with
  | nil =>
    intro url params k _ hk
    cases k with
    | zero => simp [reqList]
    | succ k => simp at hk
  | cons p rest ih =>
    intro url params k hchain hk
    cases k with
    | zero => simp [reqList]
    | succ k =>
      cases hnl : p.nextLink with
      | none =>
        cases rest with
        | cons q r2 => simp [chainOk, hnl] at hchain
        | nil =>
          simp at hk
          obtain rfl : k = 0 := by omega
          simp [reqList, hnl]
      | some link =>
        cases rest with
        | nil => simp [chainOk, hnl] at hchain
        | cons q r2 =>
          have hchain2 : chainOk (q :: r2) = true := by
            simpa [chainOk, hnl] using hchain
          simp only [reqList, hnl, List.length_cons]
          rw [ih link none k hchain2 (by simpa using hk)]

theorem clipLen_eq_min_getD (bnd : Option Nat) (len : Nat) :
    clipLen bnd len = min (bnd.getD len) len := by
  cases bnd with
  | none => simp [clipLen]
  | some n => simp [clipLen]

/-- C2: in every `_paginate` run over a consistent page script (with a limit
that is either absent or positive — the zero limit is claim C9), the query
parameters are sent only with the first request, every subsequent request uses
the server-supplied continuation link of the page before it with no extra
parameters, the number of yielded items equals the sum of the `value` array
lengths capped at the first stopping item (inclusive) or at `max_items`,
whichever binds first, and no page beyond the halting one is fetched. -/
theorem paginate_first_params_yield_count {α : Type} (stop : Option (α → Bool))
    (maxItems : Option Nat) (url : String) (params : Option QueryParams)
    (pages : List (Page α)) (hchain : chainOk pages = true)
    (hmax : maxItems ≠ some 0) :
    ((paginate stop maxItems url params pages).requests.map Prod.snd =
      params ::
        List.replicate
          ((paginate stop maxItems url params pages).requests.length - 1) none) ∧
    (∀ i, i + 1 < (paginate stop maxItems url params pages).requests.length →
      (pages.get? i).bind Page.nextLink =
        (((paginate stop maxItems url params pages).requests.get? (i + 1)).map
          Prod.fst)) ∧
    ((paginate stop maxItems url params pages).yielded.length =
      min ((omin (stopIdx stop (joinPages pages)) maxItems).getD
        (joinPages pages).length) (joinPages pages).length) ∧
    ((paginate stop maxItems url params pages).requests.length =
      if haltsIn (omin (stopIdx stop (joinPages pages)) maxItems)
          (joinPages pages).length then
        coverPages pages
          ((omin (stopIdx stop (joinPages pages)) maxItems).getD 0)
      else pages.length) := by
  have hspec := paginateGo_spec stop maxItems pages 0 url params hchain
    (fun m _ h0 => h0)
  rw [paginate, hspec]
  simp only [pagSpec]
  rw [budget_zero maxItems hmax]
  -- the number of requests issued
  set K := if haltsIn (omin (stopIdx stop (joinPages pages)) maxItems)
      (joinPages pages).length = true then
    coverPages pages
      ((omin (stopIdx stop (joinPages pages)) maxItems).getD 0)
  else pages.length with hK
  have hpages1 : 1 ≤ pages.length := by
    cases pages with
    | nil => simp [chainOk] at hchain
    | cons p rest => simp
  have hK1 : 1 ≤ K := by
    rw [hK]
    split
    · rename_i hh
      cases pages with
      | nil => simp [chainOk] at hchain
      | cons p rest => exact coverPages_pos p rest _
    · exact hpages1
  have hKlen : K ≤ pages.length := by
    rw [hK]
    split
    · rename_i hh
      cases hB : omin (stopIdx stop (joinPages pages)) maxItems with
      | none => rw [hB] at hh; simp [haltsIn] at hh
      | some n =>
        rw [hB] at hh
        simp only [Option.getD_some]
        have hn1 : 1 ≤ n :=
          omin_ge _ _ _ _ (fun k hk => stopIdx_pos stop _ k hk)
            (fun k hk => by
              have hk0 : k ≠ 0 := fun h0 => hmax (by rw [hk, h0])
              omega) hB
        have hnL : n ≤ (joinPages pages).length := by
          simpa [haltsIn] using hh
        exact coverPages_le_length pages n hn1 hnL
    · exact le_refl _
  have hreqlen : (reqList url params pages K).length = K :=
    reqList_length pages url params K hchain hKlen
  refine ⟨?_, ?_, ?_, ?_⟩
  · rw [hreqlen, reqList_snd pages url params K hK1, hreqlen]
  · intro i h
    exact reqList_links pages url params K i h
  · rw [List.length_take, clipLen_eq_min_getD]
    omega
  · exact hreqlen

/-- Witness for C2: a concrete two-page run with `max_items = 4` and no stop
condition yields exactly four items. -/
theorem paginate_first_params_yield_count_witness :
    (paginate (α := Nat) none (some 4) "u" (some [("$top", "50")])
      [⟨[1, 2, 3], some "l2"⟩, ⟨[4, 5], none⟩]).yielded.length = 4 := by
  have h := paginate_first_params_yield_count (α := Nat) none (some 4) "u"
    (some [("$top", "50")]) [⟨[1, 2, 3], some "l2"⟩, ⟨[4, 5], none⟩]
    (by rfl) (by decide)
  rw [h.2.2.1]
  rfl

theorem consumeValue_zero_limit {α : Type} (stop : Option (α → Bool)) :
    ∀ (xs : List α) (count : Nat),
    consumeValue stop (some 0) count xs = consumeValue stop none count xs := by
  intro xs
  induction xs with
  | nil => intro count; rfl
  | cons x xs ih =>
    intro count
    by_cases hx : stopHit stop x = true
    · simp [consumeValue, hx]
    · have hm : maxHit (some 0) (count + 1) = maxHit none (count + 1) := by
        simp [maxHit]
      simp only [consumeValue, hx, Bool.false_eq_true, if_false, hm]
      rw [ih (count + 1)]

theorem paginateGo_zero_limit {α : Type} (stop : Option (α → Bool)) :
    ∀ (pages : List (Page α)) (count : Nat) (url : String)
      (params : Option QueryParams),
    paginateGo stop (some 0) count url params pages =
      paginateGo stop none count url params pages := by
  intro pages
  induction pages with
  | nil => intro count url params; rfl
  | cons p rest ih =>
    intro count url params
    simp only [paginateGo, consumeValue_zero_limit stop p.value count]
    cases p.nextLink with
    | none => rfl
    | some link =>
      split
      · rfl
      · simp only []
        rw [ih]

/-- C9: a `max_items` (resp. `limit`) of `0` is falsy in
`if max_items and count >= max_items`, so `list_chats(limit=0)` paginates as
if no limit had been given: every item of every page is yielded, rather than
zero items. -/
theorem listChats_zero_limit_unlimited {α : Type} (baseUrl : String)
    (pages : List (Page α)) (hchain : chainOk pages = true) :
    listChats baseUrl (some 0) pages = listChats baseUrl none pages ∧
    (listChats baseUrl (some 0) pages).yielded = joinPages pages := by
  have heq : listChats baseUrl (some 0) pages = listChats baseUrl none pages := by
    simp only [listChats, paginate]
    exact paginateGo_zero_limit none pages 0 _ _
  refine ⟨heq, ?_⟩
  rw [heq]
  have hspec := paginateGo_spec (α := α) none none pages 0
    (baseUrl ++ "/me/chats") (some [("$expand", "members"), ("$top", "50")])
    hchain (by intro m hm; simp at hm)
  rw [listChats, paginate, hspec]
  simp only [pagSpec, stopIdx_none, budget, omin, clipLen, List.take_length]

/-- Witness for C9: with `limit = 0` a concrete two-page chat listing yields
all five chats. -/
theorem listChats_zero_limit_unlimited_witness :
    (listChats (α := Nat) "https://graph.microsoft.com/v1.0" (some 0)
      [⟨[1, 2, 3], some "l2"⟩, ⟨[4, 5], none⟩]).yielded = [1, 2, 3, 4, 5] := by
  have h := listChats_zero_limit_unlimited (α := Nat)
    "https://graph.microsoft.com/v1.0"
    [⟨[1, 2, 3], some "l2"⟩, ⟨[4, 5], none⟩] (by rfl)
  rw [h.2]
  rfl

/-- Counterexample to C10 as stated: a single page whose one item triggers the
stop-condition is fully consumed — its whole `value` array is yielded — yet
the progress callback is never invoked, because the early `return` inside the
item loop skips the per-page callback even when the halt lands on the page's
last item. -/
theorem paginate_progress_counterexample :
    (paginate (some fun x : Nat => x == 1) none "u" none
      [⟨[1], none⟩]).yielded = [1] ∧
    (paginate (some fun x : Nat => x == 1) none "u" none
      [⟨[1], none⟩]).yielded = (Page.mk [1] (none : Option String)).value ∧
    (paginate (some fun x : Nat => x == 1) none "u" none
      [⟨[1], none⟩]).progressCalls = [] :=
  ⟨rfl, rfl, rfl⟩

/-- C10 (amended): the progress callback is invoked exactly once per page
whose item loop runs to completion without halting, with the cumulative item
count, after that page's items are yielded; the page on which the
stop-condition or the item limit halts receives no callback — even when the
halting item is the last item of its page. -/
theorem paginate_progress_calls {α : Type} (stop : Option (α → Bool))
    (maxItems : Option Nat) (url : String) (params : Option QueryParams)
    (pages : List (Page α)) (hchain : chainOk pages = true)
    (hmax : maxItems ≠ some 0) :
    (paginate stop maxItems url params pages).progressCalls =
      if haltsIn (omin (stopIdx stop (joinPages pages)) maxItems)
          (joinPages pages).length then
        (cumCounts 0 pages).take
          (coverPages pages
            ((omin (stopIdx stop (joinPages pages)) maxItems).getD 0) - 1)
      else cumCounts 0 pages := by
  have hspec := paginateGo_spec stop maxItems pages 0 url params hchain
    (fun m _ h0 => h0)
  rw [paginate, hspec]
  simp only [pagSpec]
  rw [budget_zero maxItems hmax]

/-- Witness for the amended C10: in a concrete two-page run halting on the
last item of the first page, the callback list is empty. -/
theorem paginate_progress_calls_witness :
    (paginate (some fun x : Nat => x == 3) none "u" none
      [⟨[1, 2, 3], some "l2"⟩, ⟨[4, 5], none⟩]).progressCalls = [] := by
  have h := paginate_progress_calls (some fun x : Nat => x == 3) none "u" none
    [⟨[1, 2, 3], some "l2"⟩, ⟨[4, 5], none⟩] (by rfl) (by decide)
  rw [h]
  rfl

/-! ## Retry with backoff (`graph.py`, `GraphClient._request_with_retry`)

A single logical GET is driven by the script of outcomes the network would
produce for the successive physical attempts: either an HTTP response (status,
`Retry-After` header, opaque body) or a transport-level exception
(`requests.exceptions.RequestException`).  The run records the result, the
sleeps performed (in seconds) and the number of attempts consumed. -/

/-- `MAX_RETRIES = 4` in `graph.py`. -/
def MAX_RETRIES : Nat := 4

/-- `INITIAL_RETRY_DELAY = 2.0` seconds in `graph.py`; it is integer-valued,
as is every wait the code computes from it. -/
def INITIAL_RETRY_DELAY : Int := 2

/-- An HTTP response as `_request_with_retry` inspects it: the status code,
the optional `Retry-After` header and an opaque body. -/
structure HttpResponse (β : Type) where
  status : Nat
  retryAfter : Option String
  body : β
deriving DecidableEq

/-- One scripted outcome of a physical attempt. -/
inductive HttpOutcome (β : Type) where
  | resp (r : HttpResponse β)
  | exc (msg : String)
deriving DecidableEq

/-- The observable outcome of a `_request_with_retry` run. -/
structure RetryResult (β : Type) where
  result : Except String (HttpResponse β)
  sleeps : List Int
  attemptsUsed : Nat

/-- Decimal digits accumulated left to right; `none` on a non-digit. -/
def digitsToNatAux : List Char → Nat → Option Nat
  | [], acc => some acc
  | c :: cs, acc =>
    if c.isDigit then digitsToNatAux cs (acc * 10 + (c.toNat - 48)) else none

/-- Python `int(s)` on the header strings the code feeds it, `ValueError` as
`none`: an optional leading minus sign followed by at least one decimal digit.
(Python additionally strips whitespace and accepts a leading `+` or embedded
underscores, which no real `Retry-After` header carries.) -/
def pyInt (s : String) : Option Int :=
  match s.data with
  | [] => none
  | '-' :: cs =>
    match cs with
    | [] => none
    | _ :: _ => (digitsToNatAux cs 0).map (fun n : Nat => -(n : Int))
  | cs => (digitsToNatAux cs 0).map (fun n : Nat => (n : Int))

/-- `INITIAL_RETRY_DELAY * (2 ** attempt)`. -/
def retryDelay (attempt : Nat) : Int :=
  INITIAL_RETRY_DELAY * 2 ^ attempt

/-- The wait computed on a 429: `int(retry_after)` when the header is present
(non-empty — `if retry_after:` is falsy on an empty string) and parses,
else the exponential backoff. -/
def retryWait (attempt : Nat) (retryAfter : Option String) : Int :=
  match retryAfter with
  | none => retryDelay attempt
  | some s =>
    if s = "" then retryDelay attempt
    else
      match pyInt s with
      | some n => n
      | none => retryDelay attempt

/-- `GraphClient._format_error`, reduced to the status code: the real function
also inspects the JSON error envelope of the body, which none of the claims
depends on. -/
def formatError {β : Type} (r : HttpResponse β) : String :=
  "Graph API error " ++ toString r.status

/-- The `for attempt in range(MAX_RETRIES)` loop of `_request_with_retry`.
Each loop iteration consumes one scripted outcome.  A 429 sleeps `retryWait`
and retries, except on the final attempt, where it raises the formatted
error; a 5xx sleeps the exponential backoff and retries, except on the final
attempt, where it falls through to `return resp`; any other status returns
immediately; a transport exception is remembered, sleeps the backoff and
retries, except on the final attempt, where the loop ends and the
`Request failed after N attempts` error is raised with the last exception. -/
def requestWithRetryGo {β : Type} : Nat → Option String → List (HttpOutcome β) →
    RetryResult β
  | attempt, lastExc, [] =>
    if MAX_RETRIES ≤ attempt then
      ⟨Except.error
        (match lastExc with
          | some m => "Request failed after " ++ toString MAX_RETRIES ++
              " attempts: " ++ m
          | none => "Request failed after " ++ toString MAX_RETRIES ++
              " attempts"), [], 0⟩
    else ⟨Except.error "missing scripted response", [], 0⟩
  | attempt, lastExc, o :: rest =>
    if MAX_RETRIES ≤ attempt then
      ⟨Except.error
        (match lastExc with
          | some m => "Request failed after " ++ toString MAX_RETRIES ++
              " attempts: " ++ m
          | none => "Request failed after " ++ toString MAX_RETRIES ++
              " attempts"), [], 0⟩
    else
      match o with
      | HttpOutcome.resp r =>
        if r.status == 429 then
          if attempt < MAX_RETRIES - 1 then
            let t := requestWithRetryGo (attempt + 1) lastExc rest
            ⟨t.result, retryWait attempt r.retryAfter :: t.sleeps,
              t.attemptsUsed + 1⟩
          else ⟨Except.error (formatError r), [], 1⟩
        else if 500 ≤ r.status && r.status < 600 then
          if attempt < MAX_RETRIES - 1 then
            let t := requestWithRetryGo (attempt + 1) lastExc rest
            ⟨t.result, retryDelay attempt :: t.sleeps, t.attemptsUsed + 1⟩
          else ⟨Except.ok r, [], 1⟩
        else ⟨Except.ok r, [], 1⟩
      | HttpOutcome.exc msg =>
        if attempt < MAX_RETRIES - 1 then
          let t := requestWithRetryGo (attempt + 1) (some msg) rest
          ⟨t.result, retryDelay attempt :: t.sleeps, t.attemptsUsed + 1⟩
        else
          ⟨Except.error ("Request failed after " ++ toString MAX_RETRIES ++
            " attempts: " ++ msg), [], 1⟩

/-- `GraphClient._request_with_retry(url, params)`, starting at attempt 0 with
no remembered exception. -/
def requestWithRetry {β : Type} (script : List (HttpOutcome β)) : RetryResult β :=
  requestWithRetryGo 0 none script

theorem requestWithRetryGo_attempts {β : Type} :
    ∀ (script : List (HttpOutcome β)) (attempt : Nat) (lastExc : Option String),
    (requestWithRetryGo attempt lastExc script).attemptsUsed ≤
      MAX_RETRIES - attempt := by
  intro script
  induction script with
  | nil =>
    intro attempt lastExc
    by_cases h : MAX_RETRIES ≤ attempt <;> simp [requestWithRetryGo, h]
  | cons o rest ih =>
    intro attempt lastExc
    by_cases h : MAX_RETRIES ≤ attempt
    · simp [requestWithRetryGo, h]
    · cases o with
      | resp r =>
        by_cases h429 : (r.status == 429) = true
        · by_cases hlast : attempt < MAX_RETRIES - 1
          · have hb := ih (attempt + 1) lastExc
            simp [requestWithRetryGo, h, h429, hlast]
            simp only [MAX_RETRIES] at *
            omega
          · simp [requestWithRetryGo, h, h429, hlast]
            simp only [MAX_RETRIES] at *
            omega
        · by_cases h5xx : (500 ≤ r.status && r.status < 600) = true
          · by_cases hlast : attempt < MAX_RETRIES - 1
            · have hb := ih (attempt + 1) lastExc
              simp [requestWithRetryGo, h, h429, h5xx, hlast]
              simp only [MAX_RETRIES] at *
              omega
            · simp [requestWithRetryGo, h, h429, h5xx, hlast]
              simp only [MAX_RETRIES] at *
              omega
          · simp [requestWithRetryGo, h, h429, h5xx]
            simp only [MAX_RETRIES] at *
            omega
      | exc msg =>
        by_cases hlast : attempt < MAX_RETRIES - 1
        · have hb := ih (attempt + 1) (some msg)
          simp [requestWithRetryGo, h, hlast]
          simp only [MAX_RETRIES] at *
          omega
        · simp [requestWithRetryGo, h, hlast]
          simp only [MAX_RETRIES] at *
          omega

/-- A 429 on a non-final attempt sleeps `retryWait` and retries on the rest of
the script. -/
theorem requestWithRetryGo_429_step {β : Type} (attempt : Nat)
    (lastExc : Option String) (ra : Option String) (b : β)
    (rest : List (HttpOutcome β)) (hlt : attempt < MAX_RETRIES - 1) :
    requestWithRetryGo attempt lastExc (HttpOutcome.resp ⟨429, ra, b⟩ :: rest) =
      ⟨(requestWithRetryGo (attempt + 1) lastExc rest).result,
        retryWait attempt ra ::
          (requestWithRetryGo (attempt + 1) lastExc rest).sleeps,
        (requestWithRetryGo (attempt + 1) lastExc rest).attemptsUsed + 1⟩ := by
  have hnle : ¬ MAX_RETRIES ≤ attempt := by
    simp only [MAX_RETRIES] at *
    omega
  simp [requestWithRetryGo, hnle, hlt]

/-- A final-attempt 429 raises the formatted error without sleeping. -/
theorem requestWithRetryGo_429_final {β : Type} (lastExc : Option String)
    (ra : Option String) (b : β) (rest : List (HttpOutcome β)) :
    requestWithRetryGo (MAX_RETRIES - 1) lastExc
        (HttpOutcome.resp ⟨429, ra, b⟩ :: rest) =
      ⟨Except.error (formatError ⟨429, ra, b⟩), [], 1⟩ := by
  simp [requestWithRetryGo, MAX_RETRIES]

/-- C3: the retry policy of `_request_with_retry`.
1.  The scenario of the claim: a 429 carrying `Retry-After: 5` followed by a
    200 yields the 200 payload after a single sleep of exactly 5 seconds,
    without raising.
2.  On every retried attempt, a 429 sleeps `retryWait`: exactly the parsed
    `Retry-After` seconds when the header parses as an integer, else
    `initial_delay * 2^attempt`.
3.  At most `MAX_RETRIES = 4` attempts are made, on every script.
4.  On exhaustion — four consecutive 429 responses — an error is surfaced
    and no further script entry is consumed. -/
theorem requestWithRetry_policy {β : Type} :
    (∀ b1 b2 : β,
      requestWithRetry
        [HttpOutcome.resp ⟨429, some "5", b1⟩, HttpOutcome.resp ⟨200, none, b2⟩] =
        ⟨Except.ok ⟨200, none, b2⟩, [5], 2⟩) ∧
    (∀ (attempt : Nat) (lastExc : Option String) (ra : Option String) (b : β)
        (rest : List (HttpOutcome β)), attempt < MAX_RETRIES - 1 →
      requestWithRetryGo attempt lastExc (HttpOutcome.resp ⟨429, ra, b⟩ :: rest) =
        ⟨(requestWithRetryGo (attempt + 1) lastExc rest).result,
          retryWait attempt ra ::
            (requestWithRetryGo (attempt + 1) lastExc rest).sleeps,
          (requestWithRetryGo (attempt + 1) lastExc rest).attemptsUsed + 1⟩) ∧
    (∀ (s : String) (n : Int) (attempt : Nat), pyInt s = some n → s ≠ "" →
      retryWait attempt (some s) = n) ∧
    (∀ (s : String) (attempt : Nat), pyInt s = none →
      retryWait attempt (some s) = INITIAL_RETRY_DELAY * 2 ^ attempt) ∧
    (∀ (script : List (HttpOutcome β)),
      (requestWithRetry script).attemptsUsed ≤ MAX_RETRIES) ∧
    (∀ (ra1 ra2 ra3 ra4 : Option String) (b1 b2 b3 b4 : β)
        (rest : List (HttpOutcome β)),
      requestWithRetry
        (HttpOutcome.resp ⟨429, ra1, b1⟩ :: HttpOutcome.resp ⟨429, ra2, b2⟩ ::
          HttpOutcome.resp ⟨429, ra3, b3⟩ :: HttpOutcome.resp ⟨429, ra4, b4⟩ ::
          rest) =
        ⟨Except.error (formatError ⟨429, ra4, b4⟩),
          [retryWait 0 ra1, retryWait 1 ra2, retryWait 2 ra3], 4⟩) := by
  refine ⟨?_, ?_, ?_, ?_, ?_, ?_⟩
  · intro b1 b2
    rw [requestWithRetry,
      requestWithRetryGo_429_step 0 none (some "5") b1 _ (by decide)]
    have h1 : requestWithRetryGo (0 + 1) none [HttpOutcome.resp ⟨200, none, b2⟩] =
        ⟨Except.ok ⟨200, none, b2⟩, [], 1⟩ := by
      simp [requestWithRetryGo, MAX_RETRIES]
    rw [h1, show retryWait 0 (some "5") = 5 by decide]
  · exact fun attempt lastExc ra b rest hlt =>
      requestWithRetryGo_429_step attempt lastExc ra b rest hlt
  · intro s n attempt hparse hne
    simp [retryWait, hne, hparse]
  · intro s attempt hparse
    by_cases hse : s = ""
    · simp [retryWait, hse, retryDelay]
    · simp [retryWait, hse, hparse, retryDelay]
  · intro script
    have h := requestWithRetryGo_attempts script 0 none
    simpa [requestWithRetry] using h
  · intro ra1 ra2 ra3 ra4 b1 b2 b3 b4 rest
    rw [requestWithRetry,
      requestWithRetryGo_429_step 0 none ra1 b1 _ (by decide),
      requestWithRetryGo_429_step 1 none ra2 b2 _ (by decide),
      requestWithRetryGo_429_step (1 + 1) none ra3 b3 _ (by decide),
      show ((1 : Nat) + 1 + 1) = MAX_RETRIES - 1 from rfl,
      requestWithRetryGo_429_final none ra4 b4 rest]

/-- Witness for C3: the scenario evaluated at a concrete body type. -/
theorem requestWithRetry_policy_witness :
    requestWithRetry
      [HttpOutcome.resp ⟨429, some "5", (0 : Nat)⟩,
        HttpOutcome.resp ⟨200, none, 7⟩] =
      ⟨Except.ok ⟨200, none, 7⟩, [5], 2⟩ ∧
    retryWait 1 (some "abc") = 4 := by
  constructor
  · exact (requestWithRetry_policy (β := Nat)).1 0 7
  · exact (requestWithRetry_policy (β := Nat)).2.2.2.1 "abc" 1 (by rfl)

/-! ## Timestamps, range filter and sort key (`exporter.py`, `dates.py`)

`_within_range` resolves a raw message's timestamp with Python `or` chains
(so `None` and the empty string both fall through), parses it with
`dateutil.parser.isoparse`, and keeps the message iff the parsed instant lies
inside the inclusive window.  Datetimes are modeled as calendar tuples; the
parser accepts the Graph wire format `YYYY-MM-DDTHH:MM:SS[.ffffff]Z` (Graph
timestamps are always UTC-suffixed; a naive timestamp would make the Python
comparison against the timezone-aware bounds raise, which never occurs on
Graph data). -/

/-- A parsed UTC instant. -/
structure PyDateTime where
  year : Nat
  month : Nat
  day : Nat
  hour : Nat
  minute : Nat
  second : Nat
  micro : Nat
deriving DecidableEq

/-- Injective linearization of a valid calendar tuple (fields within their
calendar bounds), giving Python's field-lexicographic datetime order. -/
def dtKey (d : PyDateTime) : Nat :=
  (((((d.year * 13 + d.month) * 32 + d.day) * 24 + d.hour) * 60 + d.minute) *
    60 + d.second) * 1000000 + d.micro

/-- `a <= b` on datetimes. -/
def dtLe (a b : PyDateTime) : Bool :=
  decide (dtKey a ≤ dtKey b)

/-- Read exactly `k` decimal digits as a number. -/
def readFixedNat : Nat → List Char → Option (Nat × List Char)
  | 0, cs => some (0, cs)
  | _ + 1, [] => none
  | k + 1, c :: cs =>
    if c.isDigit then
      match readFixedNat k cs with
      | some (n, rest) => some ((c.toNat - 48) * 10 ^ k + n, rest)
      | none => none
    else none

/-- Read `1..6` fractional-second digits, scaled to microseconds. -/
def readFraction : List Char → Nat → Nat → Option (Nat × List Char)
  | cs, 0, acc => some (acc, cs)
  | [], _ + 1, acc => some (acc, [])
  | c :: cs, j + 1, acc =>
    if c.isDigit then readFraction cs j (acc * 10 + (c.toNat - 48))
    else some (acc * 10 ^ (j + 1), c :: cs)

/-- `dateutil.parser.isoparse` on the Graph wire format
`YYYY-MM-DDTHH:MM:SS[.ffffff]Z`, with calendar-bound validation. -/
def isoparse (s : String) : Option PyDateTime :=
  match readFixedNat 4 s.data with
  | none => none
  | some (y, r1) =>
    match r1 with
    | '-' :: r2 =>
      match readFixedNat 2 r2 with
      | none => none
      | some (mo, r3) =>
        match r3 with
        | '-' :: r4 =>
          match readFixedNat 2 r4 with
          | none => none
          | some (d, r5) =>
            match r5 with
            | 'T' :: r6 =>
              match readFixedNat 2 r6 with
              | none => none
              | some (h, r7) =>
                match r7 with
                | ':' :: r8 =>
                  match readFixedNat 2 r8 with
                  | none => none
                  | some (mi, r9) =>
                    match r9 with
                    | ':' :: r10 =>
                      match readFixedNat 2 r10 with
                      | none => none
                      | some (sec, r11) =>
                        let fr : Option (Nat × List Char) :=
                          match r11 with
                          | '.' :: c :: r12 =>
                            if c.isDigit then
                              readFraction r12 5 (c.toNat - 48)
                            else none
                          | r12 => some (0, r12)
                        match fr with
                        | none => none
                        | some (us, r13) =>
                          match r13 with
                          | ['Z'] =>
                            if 1 ≤ mo && mo ≤ 12 && 1 ≤ d && d ≤ 31 &&
                                h ≤ 23 && mi ≤ 59 && sec ≤ 59 then
                              some ⟨y, mo, d, h, mi, sec, us⟩
                            else none
                          | _ => none
                    | _ => none
                | _ => none
            | _ => none
        | _ => none
    | _ => none

/-- Python `a or b` on optional strings: `None` and `""` are both falsy. -/
def pyOrStr (a b : Option String) : Option String :=
  match a with
  | none => b
  | some s => if s = "" then b else some s

/-- The three timestamp fields `_within_range` and the `export_chat` sort key
read from a raw Graph message. -/
structure MsgTimes where
  lastModifiedDateTime : Option String
  createdDateTime : Option String
  originalArrivalDateTime : Option String
deriving DecidableEq

/-- `_within_range(message, start_dt, end_dt)`:
`timestamp = message.get("lastModifiedDateTime") or message.get("createdDateTime")
or message.get("originalArrivalDateTime")`; falsy timestamp or a parse failure
excludes the message; otherwise `start_dt <= dt_value <= end_dt`. -/
def withinRange (m : MsgTimes) (startDt endDt : PyDateTime) : Bool :=
  match pyOrStr (pyOrStr m.lastModifiedDateTime m.createdDateTime)
      m.originalArrivalDateTime with
  | none => false
  | some ts =>
    if ts = "" then false
    else
      match isoparse ts with
      | none => false
      | some d => dtLe startDt d && dtLe d endDt

/-- The sort key of `export_chat`:
`m.get("createdDateTime") or m.get("lastModifiedDateTime") or ""`. -/
def sortKey (m : MsgTimes) : String :=
  match pyOrStr m.createdDateTime m.lastModifiedDateTime with
  | none => ""
  | some s => s

/-! Spec-side restatements of the resolution chains, with a present-but-empty
field treated as missing. -/

/-- A field counts as present only when non-empty. -/
def nonEmptyStr : Option String → Option String
  | none => none
  | some s => if s = "" then none else some s

/-- First present field wins, in the stated priority order. -/
def specResolveTs (first second third : Option String) : Option String :=
  match nonEmptyStr first with
  | some s => some s
  | none =>
    match nonEmptyStr second with
    | some s => some s
    | none => nonEmptyStr third

theorem pyOrStr_eq_specResolve (a b c : Option String) :
    (match pyOrStr (pyOrStr a b) c with
      | none => none
      | some s => if s = "" then none else some s) =
      specResolveTs a b c := by
  cases a with
  | none =>
    cases b with
    | none => cases c <;> simp [pyOrStr, specResolveTs, nonEmptyStr]
    | some sb =>
      by_cases hb : sb = "" <;>
        cases c <;> simp [pyOrStr, specResolveTs, nonEmptyStr, hb]
  | some sa =>
    by_cases ha : sa = ""
    · cases b with
      | none => cases c <;> simp [pyOrStr, specResolveTs, nonEmptyStr, ha]
      | some sb =>
        by_cases hb : sb = "" <;>
          cases c <;> simp [pyOrStr, specResolveTs, nonEmptyStr, ha, hb]
    · simp [pyOrStr, specResolveTs, nonEmptyStr, ha]

/-- `_within_range` equals the spec-side check over the
lastModified → created → arrival resolution chain. -/
theorem withinRange_spec_chain (m : MsgTimes) (s e : PyDateTime) :
    withinRange m s e =
      (match specResolveTs m.lastModifiedDateTime m.createdDateTime
          m.originalArrivalDateTime with
        | none => false
        | some ts =>
          match isoparse ts with
          | none => false
          | some d => dtLe s d && dtLe d e) := by
  rw [withinRange]
  have h := pyOrStr_eq_specResolve m.lastModifiedDateTime m.createdDateTime
    m.originalArrivalDateTime
  cases hc : pyOrStr (pyOrStr m.lastModifiedDateTime m.createdDateTime)
      m.originalArrivalDateTime with
  | none =>
    rw [hc] at h
    simp only at h
    rw [← h]
  | some ts =>
    rw [hc] at h
    by_cases hts : ts = ""
    · simp only [hts, if_true, reduceIte] at h ⊢
      rw [← h]
    · simp only [hts, if_neg, ite_false] at h ⊢
      rw [← h]

/-- Counterexample to C1 as stated: a message edited after creation.  Resolving
created-first (the claim's order) picks the in-window creation instant
2025-01-05 and would include the message in the window
[2025-01-01, 2025-01-06 23:59:59]; `_within_range` prefers
`lastModifiedDateTime` (2025-01-10) and excludes it.  Moreover the
`export_chat` sort key has no arrival fallback: a message carrying only
`originalArrivalDateTime` gets the empty sort key. -/
theorem timestamp_priority_counterexample :
    (specResolveTs (some "2025-01-05T00:00:00Z") (some "2025-01-10T00:00:00Z")
      (none : Option String) = some "2025-01-05T00:00:00Z") ∧
    ((match isoparse "2025-01-05T00:00:00Z" with
      | none => false
      | some d => dtLe ⟨2025, 1, 1, 0, 0, 0, 0⟩ d &&
          dtLe d ⟨2025, 1, 6, 23, 59, 59, 0⟩) = true) ∧
    (withinRange
      ⟨some "2025-01-10T00:00:00Z", some "2025-01-05T00:00:00Z", none⟩
      ⟨2025, 1, 1, 0, 0, 0, 0⟩ ⟨2025, 1, 6, 23, 59, 59, 0⟩ = false) ∧
    (sortKey ⟨none, none, some "2020-01-01T00:00:00Z"⟩ = "") := by
  refine ⟨by decide, by decide, by decide, by decide⟩

/-- C1 (amended): `_within_range` resolves a message's timestamp preferring
`lastModifiedDateTime`, falling back to `createdDateTime`, then to
`originalArrivalDateTime` (with `None` and `""` both skipped); the `export_chat`
sort key prefers `createdDateTime`, falls back to `lastModifiedDateTime`, and
defaults to the empty string with no arrival fallback; a message lacking all
three fields is excluded from range-filtered output. -/
theorem timestamp_priority_order :
    (∀ (m : MsgTimes) (s e : PyDateTime),
      withinRange m s e =
        (match specResolveTs m.lastModifiedDateTime m.createdDateTime
            m.originalArrivalDateTime with
          | none => false
          | some ts =>
            match isoparse ts with
            | none => false
            | some d => dtLe s d && dtLe d e)) ∧
    (∀ m : MsgTimes,
      sortKey m =
        (specResolveTs m.createdDateTime m.lastModifiedDateTime none).getD "") ∧
    (∀ (m : MsgTimes) (s e : PyDateTime),
      m.lastModifiedDateTime = none → m.createdDateTime = none →
      m.originalArrivalDateTime = none → withinRange m s e = false) := by
  refine ⟨withinRange_spec_chain, ?_, ?_⟩
  · intro m
    rw [sortKey]
    cases hcr : m.createdDateTime with
    | none =>
      cases hlm : m.lastModifiedDateTime with
      | none => simp [pyOrStr, specResolveTs, nonEmptyStr]
      | some sl =>
        by_cases hl : sl = "" <;>
          simp [pyOrStr, specResolveTs, nonEmptyStr, hl]
    | some sc =>
      by_cases hc : sc = ""
      · cases hlm : m.lastModifiedDateTime with
        | none => simp [pyOrStr, specResolveTs, nonEmptyStr, hc]
        | some sl =>
          by_cases hl : sl = "" <;>
            simp [pyOrStr, specResolveTs, nonEmptyStr, hc, hl]
      · simp [pyOrStr, specResolveTs, nonEmptyStr, hc]
  · intro m s e h1 h2 h3
    simp [withinRange, pyOrStr, h1, h2, h3]

/-- Witness for the amended C1 at a concrete message: all three fields absent
excludes the message, and a created-only message sorts by its creation
timestamp. -/
theorem timestamp_priority_order_witness :
    withinRange ⟨none, none, none⟩ ⟨2025, 1, 1, 0, 0, 0, 0⟩
      ⟨2025, 1, 6, 23, 59, 59, 0⟩ = false ∧
    sortKey ⟨none, some "2025-01-05T00:00:00Z", none⟩ =
      "2025-01-05T00:00:00Z" := by
  constructor
  · exact timestamp_priority_order.2.2 ⟨none, none, none⟩ _ _ rfl rfl rfl
  · rw [timestamp_priority_order.2.1 ⟨none, some "2025-01-05T00:00:00Z", none⟩]
    decide

/-- C4: a message passes the range filter iff its resolved timestamp parses
and lies within the inclusive window `[S, E]` (both boundaries included), and
a message whose resolved timestamp does not parse — or which has no resolved
timestamp at all — is always excluded. -/
theorem within_range_iff (m : MsgTimes) (s e : PyDateTime) :
    (withinRange m s e = true ↔
      ∃ ts d,
        specResolveTs m.lastModifiedDateTime m.createdDateTime
          m.originalArrivalDateTime = some ts ∧
        isoparse ts = some d ∧ dtLe s d = true ∧ dtLe d e = true) ∧
    ((∀ ts, specResolveTs m.lastModifiedDateTime m.createdDateTime
        m.originalArrivalDateTime = some ts → isoparse ts = none) →
      withinRange m s e = false) := by
  rw [withinRange_spec_chain]
  constructor
  · cases hr : specResolveTs m.lastModifiedDateTime m.createdDateTime
        m.originalArrivalDateTime with
    | none => simp
    | some ts =>
      cases hp : isoparse ts with
      | none => simp [hp]
      | some d =>
        simp only [hp]
        constructor
        · intro h
          rcases (Bool.and_eq_true _ _).mp h with ⟨h1, h2⟩
          exact ⟨ts, d, rfl, hp, h1, h2⟩
        · rintro ⟨ts2, d2, hts2, hp2, hs2, he2⟩
          obtain rfl : ts = ts2 := Option.some.inj hts2
          rw [hp] at hp2
          obtain rfl : d = d2 := Option.some.inj hp2
          rw [hs2, he2]
          rfl
  · intro hnone
    cases hr : specResolveTs m.lastModifiedDateTime m.createdDateTime
        m.originalArrivalDateTime with
    | none => simp
    | some ts =>
      simp [hnone ts hr]

/-- Witness for C4: a concrete in-window message is included, and a message
with an unparsable resolved timestamp is excluded. -/
theorem within_range_iff_witness :
    withinRange ⟨some "2025-01-05T00:00:00Z", none, none⟩
      ⟨2025, 1, 1, 0, 0, 0, 0⟩ ⟨2025, 1, 6, 23, 59, 59, 0⟩ = true ∧
    withinRange ⟨some "not-a-date", none, none⟩
      ⟨2025, 1, 1, 0, 0, 0, 0⟩ ⟨2025, 1, 6, 23, 59, 59, 0⟩ = false := by
  constructor
  · exact (within_range_iff ⟨some "2025-01-05T00:00:00Z", none, none⟩
      ⟨2025, 1, 1, 0, 0, 0, 0⟩ ⟨2025, 1, 6, 23, 59, 59, 0⟩).1.mpr
      ⟨"2025-01-05T00:00:00Z", ⟨2025, 1, 5, 0, 0, 0, 0⟩, by decide, by decide,
        by decide, by decide⟩
  · refine (within_range_iff ⟨some "not-a-date", none, none⟩
      ⟨2025, 1, 1, 0, 0, 0, 0⟩ ⟨2025, 1, 6, 23, 59, 59, 0⟩).2 ?_
    intro ts hts
    have hts2 : specResolveTs (some "not-a-date") none none = some ts := hts
    have hd : specResolveTs (some "not-a-date") none none =
        some "not-a-date" := by decide
    rw [hd] at hts2
    obtain rfl : ts = "not-a-date" := (Option.some.inj hts2).symm
    decide

/-! ## Output filename (`exporter.py` `export_chat` and `_normalise_filename`,
`dates.py` `resolve_range`)

The stem is derived from the chat topic (or display name, or the first
participant label, or the raw chat id), sanitized by
`re.sub(r"[^a-zA-Z0-9_-]+", "_", identifier.strip()).lower().strip("_")`,
with `"chat"` as the empty fallback; the date fragment is the single start
date when start and end fall on the same day, else `start_end`.  Characters
are treated as ASCII (the identifiers exercised by the claims are ASCII). -/

/-- Python `str.strip()` whitespace. -/
def isPyWs (c : Char) : Bool :=
  c = ' ' || c = '\t' || c = '\n' || c = '\r' || c = '\x0b' || c = '\x0c'

/-- Characters the sanitizer keeps: `[a-zA-Z0-9_-]`. -/
def isSafeChar (c : Char) : Bool :=
  ('a' ≤ c && c ≤ 'z') || ('A' ≤ c && c ≤ 'Z') || ('0' ≤ c && c ≤ '9') ||
    c = '_' || c = '-'

/-- `re.sub(r"[^a-zA-Z0-9_-]+", "_", ·)`: each maximal run of unsafe
characters becomes a single underscore. -/
def collapseUnsafeGo : Bool → List Char → List Char
  | _, [] => []
  | inRun, c :: cs =>
    if isSafeChar c then c :: collapseUnsafeGo false cs
    else if inRun then collapseUnsafeGo true cs
    else '_' :: collapseUnsafeGo true cs

def collapseUnsafe (cs : List Char) : List Char :=
  collapseUnsafeGo false cs

/-- `_normalise_filename(identifier)`. -/
def normaliseFilename (identifier : String) : String :=
  let stripped := (identifier.data.dropWhile isPyWs).reverse.dropWhile isPyWs
    |>.reverse
  let safe := collapseUnsafe stripped
  let lowered := safe.map Char.toLower
  let trimmed := (lowered.dropWhile (· = '_')).reverse.dropWhile (· = '_')
    |>.reverse
  if trimmed.isEmpty then "chat" else String.mk trimmed

/-- Python `str.lower()` (ASCII model). -/
def pyLower (s : String) : String :=
  String.mk (s.data.map Char.toLower)

/-- A chat member as `_member_labels` reads it. -/
structure Member where
  displayName : Option String
  email : Option String
deriving DecidableEq

/-- The chat fields `export_chat` reads for the filename. -/
structure ChatMeta where
  id : Option String
  topic : Option String
  displayName : Option String
  members : List Member
deriving DecidableEq

/-- `_member_labels(chat)`: each member contributes its display name and its
email, when truthy, in that order. -/
def memberLabels (chat : ChatMeta) : List String :=
  chat.members.foldr
    (fun member acc =>
      (match nonEmptyStr member.displayName with
        | some d => [d]
        | none => []) ++
      (match nonEmptyStr member.email with
        | some m => [m]
        | none => []) ++ acc) []

/-- The format normalization of `export_chat`: the file suffix for a
lower-cased format tag. -/
def formatSuffix (fmtLower : String) : String :=
  if fmtLower = "jira" || fmtLower = "jira-markdown" || fmtLower = "markdown"
    then "md"
  else if fmtLower = "html" then "html"
  else if fmtLower = "docx" || fmtLower = "word" then "docx"
  else fmtLower

/-- Zero-padded two-digit field. -/
def pad2 (n : Nat) : String :=
  if n < 10 then "0" ++ toString n else toString n

/-- Zero-padded four-digit year. -/
def pad4 (n : Nat) : String :=
  if n < 10 then "000" ++ toString n
  else if n < 100 then "00" ++ toString n
  else if n < 1000 then "0" ++ toString n
  else toString n

/-- `date.isoformat()`. -/
def isoDate (d : PyDateTime) : String :=
  pad4 d.year ++ "-" ++ pad2 d.month ++ "-" ++ pad2 d.day

/-- `datetime.date()` equality: same calendar day. -/
def sameDate (a b : PyDateTime) : Bool :=
  a.year == b.year && a.month == b.month && a.day == b.day

/-- The filename computed by `export_chat` before any fetching: stem from the
identifier chain, the date fragment, and the format suffix.  `none` models the
`ChatNotFoundError` raised when the chat id is falsy. -/
def exportFilename (chat : ChatMeta) (startDt endDt : PyDateTime)
    (outputFormat : String) : Option String :=
  match nonEmptyStr chat.id with
  | none => none
  | some chatId =>
    let identifier : String :=
      match nonEmptyStr (pyOrStr chat.topic chat.displayName) with
      | some s => s
      | none =>
        match memberLabels chat with
        | l :: _ => l
        | [] => chatId
    let suffix := formatSuffix (pyLower outputFormat)
    let dateFragment :=
      if sameDate startDt endDt then isoDate startDt
      else isoDate startDt ++ "_" ++ isoDate endDt
    some (normaliseFilename identifier ++ "_" ++ dateFragment ++ "." ++ suffix)

/-- `dates.resolve_range` once both endpoint dates are parsed: the window runs
from midnight of the start day to `23:59:59` of the end day (inclusive);
`none` models the `DateParseError` when the end precedes the start. -/
def resolveRangeDates (sy sm sd ey em ed : Nat) :
    Option (PyDateTime × PyDateTime) :=
  if (ey * 13 + em) * 32 + ed < (sy * 13 + sm) * 32 + sd then none
  else some (⟨sy, sm, sd, 0, 0, 0, 0⟩, ⟨ey, em, ed, 23, 59, 59, 0⟩)

/-- Counterexample to C7 as stated: for the conversation titled `"Team Sync"`
and the window [2025-01-01, 2025-01-02] — two distinct calendar days — the
code appends the `start_end` fragment, producing
`team_sync_2025-01-01_2025-01-02.json`, not the claimed
`team_sync_2025-01-01.json`. -/
theorem export_filename_counterexample :
    resolveRangeDates 2025 1 1 2025 1 2 =
      some (⟨2025, 1, 1, 0, 0, 0, 0⟩, ⟨2025, 1, 2, 23, 59, 59, 0⟩) ∧
    exportFilename ⟨some "19:abc123", some "Team Sync", none, []⟩
      ⟨2025, 1, 1, 0, 0, 0, 0⟩ ⟨2025, 1, 2, 23, 59, 59, 0⟩ "json" =
      some "team_sync_2025-01-01_2025-01-02.json" ∧
    exportFilename ⟨some "19:abc123", some "Team Sync", none, []⟩
      ⟨2025, 1, 1, 0, 0, 0, 0⟩ ⟨2025, 1, 2, 23, 59, 59, 0⟩ "json" ≠
      some "team_sync_2025-01-01.json" := by
  refine ⟨by decide, by decide, by decide⟩

/-! Spec-side filename quantities for the amended C7. -/

/-- The spec's identifier chain: conversation title, else first participant
label, else the raw chat id. -/
def specIdentifier (chat : ChatMeta) (chatId : String) : String :=
  match nonEmptyStr (pyOrStr chat.topic chat.displayName) with
  | some s => s
  | none =>
    match memberLabels chat with
    | l :: _ => l
    | [] => chatId

/-- The spec's date fragment: the single date when the endpoints share a day,
else `start_end`. -/
def specDateFragment (startDt endDt : PyDateTime) : String :=
  if sameDate startDt endDt then isoDate startDt
  else isoDate startDt ++ "_" ++ isoDate endDt

/-- C7 (amended): the output filename is the sanitized identifier stem,
the date fragment — the `start_end` pair whenever start and end fall on
different days, the single date only when they share a day — and the format's
canonical extension.  For the `"Team Sync"` scenario over
[2025-01-01, 2025-01-02] the JSON filename is therefore
`team_sync_2025-01-01_2025-01-02.json`, and over the one-day window
[2025-01-01, 2025-01-01] it is `team_sync_2025-01-01.json`. -/
theorem export_filename_derivation :
    (∀ (chat : ChatMeta) (s e : PyDateTime) (fmt : String),
      exportFilename chat s e fmt =
        (nonEmptyStr chat.id).map (fun cid =>
          normaliseFilename (specIdentifier chat cid) ++ "_" ++
            specDateFragment s e ++ "." ++ formatSuffix (pyLower fmt))) ∧
    (formatSuffix "markdown" = "md" ∧ formatSuffix "html" = "html" ∧
      formatSuffix "json" = "json" ∧ formatSuffix "csv" = "csv") ∧
    exportFilename ⟨some "19:abc123", some "Team Sync", none, []⟩
      ⟨2025, 1, 1, 0, 0, 0, 0⟩ ⟨2025, 1, 2, 23, 59, 59, 0⟩ "json" =
      some "team_sync_2025-01-01_2025-01-02.json" ∧
    exportFilename ⟨some "19:abc123", some "Team Sync", none, []⟩
      ⟨2025, 1, 1, 0, 0, 0, 0⟩ ⟨2025, 1, 1, 23, 59, 59, 0⟩ "json" =
      some "team_sync_2025-01-01.json" := by
  refine ⟨?_, by decide, by decide, by decide⟩
  intro chat s e fmt
  cases h : nonEmptyStr chat.id with
  | none => simp [exportFilename, h]
  | some cid => simp [exportFilename, h, specIdentifier, specDateFragment]

/-! ## Attachments (`exporter.py`, `_extract_attachment_urls`,
`_download_attachments`, `_download_attachment`; `formatters.py` fallback)

A message contributes the `src` attributes of its inline `<img>` tags (the
regex scan over the HTML body is modeled by the list of matched sources, in
document order) and its attachments' URLs, resolved through the prioritized
field chain.  The network is a download oracle `dl : String → Option String`
returning the response `Content-Type` on HTTP 200 and `none` on a non-200
status or transport error.  The attachments directory starts empty (it is
created by `mkdir`).

`_download_attachments` has a defect this model preserves: the progress
`print` at the end of each loop iteration references `unique_urls`, a name
that does not exist (the list is called `unique_url_tuples`), so the first
iteration raises `NameError` — after attempting the download and, on success,
recording the mapping entry. -/

/-- Prefix test on character lists. -/
def listIsPre : List Char → List Char → Bool
  | [], _ => true
  | _ :: _, [] => false
  | a :: as2, b :: bs => a == b && listIsPre as2 bs

/-- Python `s.startswith(pat)`. -/
def strStarts (s pat : String) : Bool :=
  listIsPre pat.data s.data

/-- Python `s.endswith(pat)`. -/
def strEnds (s pat : String) : Bool :=
  listIsPre pat.data.reverse s.data.reverse

/-- The attachment fields read by `_extract_attachment_urls` and the
formatters.  `hostedContentsContentUrl` models
`att.get("hostedContents", {}).get("contentUrl")` guarded by the
`isinstance(…, dict)` check. -/
structure Attachment where
  name : Option String
  contentType : Option String
  contentUrl : Option String
  content : Option String
  url : Option String
  thumbnailUrl : Option String
  hostedContentsContentUrl : Option String
deriving DecidableEq

/-- A message as the attachment pipeline reads it: the inline image sources
matched by the `<img … src="…">` regex over the body HTML, and the
attachments array. -/
structure AMessage where
  contentImgSrcs : List String
  attachments : List Attachment
deriving DecidableEq

/-- The prioritized URL chain:
`contentUrl or content or url or thumbnailUrl or hostedContents.contentUrl`. -/
def attachmentUrl (att : Attachment) : Option String :=
  pyOrStr (pyOrStr (pyOrStr (pyOrStr att.contentUrl att.content) att.url)
    att.thumbnailUrl) att.hostedContentsContentUrl

/-- The image-extension whitelist of the extractor and the formatters. -/
def imageExts : List String :=
  [".png", ".jpg", ".jpeg", ".gif", ".bmp", ".svg", ".webp"]

/-- The image test: content-type prefix when a content type is present, else
the filename-extension whitelist on the lower-cased name. -/
def attachmentIsImage (att : Attachment) : Bool :=
  let contentType := att.contentType.getD ""
  let name := att.name.getD ""
  if contentType ≠ "" then strStarts contentType "image/"
  else imageExts.any (fun ext => strEnds (pyLower name) ext)

/-- `_extract_attachment_urls` for one message: inline images first (always
tagged as images), then attachment URLs, keeping only truthy URLs that start
with `http`. -/
def extractFromMessage (m : AMessage) : List (String × Bool) :=
  m.contentImgSrcs.filterMap (fun src =>
      if src ≠ "" && strStarts src "http" then some (src, true) else none) ++
    m.attachments.filterMap (fun att =>
      match attachmentUrl att with
      | none => none
      | some url =>
        if url ≠ "" && strStarts url "http" then
          some (url, attachmentIsImage att)
        else none)

/-- `_extract_attachment_urls(messages)`. -/
def extractAttachmentUrls (messages : List AMessage) : List (String × Bool) :=
  (messages.map extractFromMessage).flatten

/-- `list(dict.fromkeys(url_tuples))`: first occurrence of each
`(url, is_image)` pair is kept, in order.  Note the key is the pair, not the
URL alone. -/
def dedupGo (seen : List (String × Bool)) :
    List (String × Bool) → List (String × Bool)
  | [] => []
  | x :: xs =>
    if seen.contains x then dedupGo seen xs
    else x :: dedupGo (x :: seen) xs

def dedupPreserve (l : List (String × Bool)) : List (String × Bool) :=
  dedupGo [] l

/-- The MIME-to-extension table of `_get_extension_from_mime`. -/
def mimeToExt : List (String × String) :=
  [("image/png", ".png"), ("image/jpeg", ".jpg"), ("image/jpg", ".jpg"),
   ("image/gif", ".gif"), ("image/bmp", ".bmp"), ("image/webp", ".webp"),
   ("image/svg+xml", ".svg"), ("image/tiff", ".tiff"),
   ("image/x-icon", ".ico"), ("application/pdf", ".pdf"),
   ("application/msword", ".doc"),
   ("application/vnd.openxmlformats-officedocument.wordprocessingml.document",
     ".docx"),
   ("application/vnd.ms-excel", ".xls"),
   ("application/vnd.openxmlformats-officedocument.spreadsheetml.sheet",
     ".xlsx"),
   ("application/vnd.ms-powerpoint", ".ppt"),
   ("application/vnd.openxmlformats-officedocument.presentationml.presentation",
     ".pptx"),
   ("application/vnd.oasis.opendocument.text", ".odt"),
   ("application/vnd.oasis.opendocument.spreadsheet", ".ods"),
   ("application/vnd.oasis.opendocument.presentation", ".odp"),
   ("application/zip", ".zip"), ("application/x-zip-compressed", ".zip"),
   ("application/x-rar-compressed", ".rar"),
   ("application/x-7z-compressed", ".7z"), ("application/gzip", ".gz"),
   ("application/x-tar", ".tar"), ("text/plain", ".txt"),
   ("text/csv", ".csv"), ("text/html", ".html"), ("text/css", ".css"),
   ("text/javascript", ".js"), ("application/json", ".json"),
   ("application/xml", ".xml"), ("text/xml", ".xml"),
   ("text/markdown", ".md"), ("application/x-python", ".py"),
   ("text/x-python", ".py"), ("application/x-sh", ".sh"),
   ("video/mp4", ".mp4"), ("video/mpeg", ".mpeg"),
   ("video/quicktime", ".mov"), ("video/x-msvideo", ".avi"),
   ("video/webm", ".webm"), ("audio/mpeg", ".mp3"), ("audio/wav", ".wav"),
   ("audio/ogg", ".ogg"), ("audio/webm", ".weba")]

/-- `_get_extension_from_mime(mime_type)`: table lookup on the lower-cased
type, `.bin` fallback. -/
def getExtensionFromMime (mime : String) : String :=
  (mimeToExt.lookup (pyLower mime)).getD ".bin"

/-- The `"://"`-scheme split of `urlparse`: characters after the first
`"://"`. -/
def afterScheme : List Char → Option (List Char)
  | ':' :: '/' :: '/' :: rest => some rest
  | _ :: cs => afterScheme cs
  | [] => none

/-- `urlparse(url).path` for an absolute URL: the part from the first slash
after the authority, query and fragment cut off. -/
def pathOfUrl (url : String) : List Char :=
  match afterScheme url.data with
  | some rest =>
    (rest.dropWhile (· ≠ '/')).takeWhile (fun c => c ≠ '?' && c ≠ '#')
  | none => url.data.takeWhile (fun c => c ≠ '?' && c ≠ '#')

/-- `path.split('/')[-1]`: the segment after the final slash. -/
def lastSegment (cs : List Char) : List Char :=
  (cs.reverse.takeWhile (· ≠ '/')).reverse

/-- `base_filename.rsplit('.', 1)[0]` when a dot is present. -/
def dropExtension (cs : List Char) : List Char :=
  if cs.contains '.' then
    match cs.reverse.dropWhile (· ≠ '.') with
    | _ :: rest => rest.reverse
    | [] => cs
  else cs

/-- `f"{idx:03d}"`. -/
def pad3 (n : Nat) : String :=
  if n < 10 then "00" ++ toString n
  else if n < 100 then "0" ++ toString n
  else toString n

/-- The base filename `_download_attachments` derives from the URL (or from
the index when the URL path has no final segment). -/
def urlBase (url : String) (isImage : Bool) (idx : Nat) : String :=
  let last := lastSegment (pathOfUrl url)
  if last.isEmpty then
    (if isImage then "image" else "file") ++ "_" ++ pad3 idx
  else String.mk (dropExtension last)

/-- `re.sub(r'[^\w\-]', '_', base_filename)` (ASCII word characters). -/
def sanitizeBase (s : String) : String :=
  String.mk (s.data.map (fun c => if isSafeChar c then c else '_'))

/-- The observable outcome of a `_download_attachments` call: the URLs for
which a download was attempted, the URL→relative-path mapping built, and the
exception that escaped, if any. -/
structure DlResult where
  attempts : List String
  mapping : List (String × String)
  raised : Option String
deriving DecidableEq

/-- `_download_attachments(client, messages, attachments_dir)` against a
fresh attachments directory.  With no extracted URL the loop body never runs
and the empty mapping is returned.  Otherwise the first iteration attempts
the download of the first unique `(url, is_image)` pair; on success the file
is renamed to the derived base name plus the content-type extension (no
collision in a fresh directory) and the mapping entry recorded; then — in
both the success and the failure branch — the progress `print` evaluates
`len(unique_urls)` and raises `NameError`, so no further pair is processed
and the mapping is never returned to the caller. -/
def downloadAttachments (dl : String → Option String) (dirName : String)
    (messages : List AMessage) : DlResult :=
  match dedupPreserve (extractAttachmentUrls messages) with
  | [] => ⟨[], [], none⟩
  | (url, isImage) :: _ =>
    let base := sanitizeBase (urlBase url isImage 1)
    match dl url with
    | some contentType =>
      let ext :=
        if contentType ≠ "" then getExtensionFromMime contentType
        else if isImage then ".png" else ".bin"
      ⟨[url], [(url, dirName ++ "/" ++ (base ++ ext))],
        some "NameError: name 'unique_urls' is not defined"⟩
    | none =>
      ⟨[url], [], some "NameError: name 'unique_urls' is not defined"⟩

/-- `url_mapping.get(url, url)` in `_format_jira_message`: the local path when
mapped, the remote URL otherwise. -/
def displayUrl (urlMapping : List (String × String)) (url : String) : String :=
  match urlMapping.lookup url with
  | some p => p
  | none => url

/-- C5 (code bug): on a concrete export in which two messages reference the
same image URL, the single unique pair does get exactly one download attempt,
and the mapping entry is recorded — but `_download_attachments` then raises
`NameError` (the progress print references the undefined name `unique_urls`),
so the mapping is never returned and the export aborts, contrary to the
claim.  Additionally, deduplication keys on the `(url, is_image)` pair, not
the URL: a URL referenced both as an inline image and as a non-image
attachment yields two unique entries, i.e. two download attempts even with
the print repaired. -/
theorem download_attachments_name_error :
    (downloadAttachments (fun _ => some "image/png") "files_dir"
      [⟨[], [⟨some "pic.png", some "image/png",
          some "https://example.com/files/pic.png", none, none, none, none⟩]⟩,
       ⟨[], [⟨some "pic.png", some "image/png",
          some "https://example.com/files/pic.png", none, none, none, none⟩]⟩] =
      ⟨["https://example.com/files/pic.png"],
        [("https://example.com/files/pic.png", "files_dir/pic.png")],
        some "NameError: name 'unique_urls' is not defined"⟩) ∧
    ((downloadAttachments (fun _ => some "image/png") "files_dir"
      [⟨[], [⟨some "pic.png", some "image/png",
          some "https://example.com/files/pic.png", none, none, none,
          none⟩]⟩,
       ⟨[], [⟨some "pic.png", some "image/png",
          some "https://example.com/files/pic.png", none, none, none,
          none⟩]⟩]).raised ≠ none) ∧
    (dedupPreserve (extractAttachmentUrls
      [⟨["https://example.com/files/doc.bin"],
        [⟨some "doc.bin", some "application/pdf",
          some "https://example.com/files/doc.bin", none, none, none,
          none⟩]⟩]) =
      [("https://example.com/files/doc.bin", true),
       ("https://example.com/files/doc.bin", false)]) := by
  refine ⟨by decide, by decide, by decide⟩

/-- C6 (code bug): a failed download does discard the entry (the URL is
absent from the partial mapping) and the formatter would fall back to the
remote URL for an unmapped attachment — but the failure branch of
`_download_attachments` also reaches the `NameError` print, so the export
aborts instead of continuing non-fatally as the claim states. -/
theorem download_failure_not_nonfatal :
    (downloadAttachments (fun _ => none) "files_dir"
      [⟨[], [⟨some "pic.png", some "image/png",
          some "https://example.com/files/pic.png", none, none, none, none⟩]⟩] =
      ⟨["https://example.com/files/pic.png"], [],
        some "NameError: name 'unique_urls' is not defined"⟩) ∧
    (displayUrl [] "https://example.com/files/pic.png" =
      "https://example.com/files/pic.png") ∧
    (displayUrl [("https://example.com/files/pic.png", "files_dir/pic.png")]
      "https://example.com/files/pic.png" = "files_dir/pic.png") := by
  refine ⟨by decide, by decide, by decide⟩

/-! ## JSON rendering and parsing (`exporter.py` `_write_json`,
`_transform_message`; the Python `json` module)

`_write_json` renders the normalized message list with
`json.dumps(payload, indent=2)` and the round-trip claim parses it back with
`json.loads`.  JSON values are modeled with integer numbers (the Graph
payloads the exporter handles carry strings, booleans, nulls, arrays and
objects; floats do not round-trip bit-exactly in any case and are out of
scope).  Objects keep their fields in insertion order, as Python dicts do.
`dumps` reproduces `indent=2` formatting and the default `ensure_ascii=True`
escaping, surrogate pairs included; `loads` is a whitespace-tolerant
recursive-descent parser (it is lenient where CPython is strict — raw control
characters in strings, leading zeros — which printed output never contains,
and it rejects lone surrogate escapes, which Lean characters cannot carry and
printed output never contains). -/

inductive Json where
  | null
  | bool (b : Bool)
  | num (n : Int)
  | str (s : String)
  | arr (items : List Json)
  | obj (fields : List (String × Json))

/-- Lowercase hexadecimal digit. -/
def hexDigitChar (n : Nat) : Char :=
  match n with
  | 0 => '0' | 1 => '1' | 2 => '2' | 3 => '3' | 4 => '4'
  | 5 => '5' | 6 => '6' | 7 => '7' | 8 => '8' | 9 => '9'
  | 10 => 'a' | 11 => 'b' | 12 => 'c' | 13 => 'd' | 14 => 'e'
  | _ => 'f'

/-- Four lowercase hex digits, most significant first (`\uXXXX` payload). -/
def hex4 (n : Nat) : List Char :=
  [hexDigitChar (n / 4096 % 16), hexDigitChar (n / 256 % 16),
   hexDigitChar (n / 16 % 16), hexDigitChar (n % 16)]

/-- `ensure_ascii=True` escaping of one character: the two mandatory escapes,
the five short escapes, printable ASCII verbatim, `\uXXXX` otherwise, with a
surrogate pair above `U+FFFF`. -/
def escapeChar (c : Char) : List Char :=
  if c = '"' then ['\\', '"']
  else if c = '\\' then ['\\', '\\']
  else if c = '\n' then ['\\', 'n']
  else if c = '\r' then ['\\', 'r']
  else if c = '\t' then ['\\', 't']
  else if c.toNat = 8 then ['\\', 'b']
  else if c.toNat = 12 then ['\\', 'f']
  else if 32 ≤ c.toNat ∧ c.toNat ≤ 126 then [c]
  else if c.toNat < 65536 then '\\' :: 'u' :: hex4 c.toNat
  else
    ('\\' :: 'u' :: hex4 (55296 + (c.toNat - 65536) / 1024)) ++
      ('\\' :: 'u' :: hex4 (56320 + (c.toNat - 65536) % 1024))

def escapeStr : List Char → List Char
  | [] => []
  | c :: cs => escapeChar c ++ escapeStr cs

/-- A JSON string literal: quote, escaped content, quote. -/
def quoteStr (s : String) : List Char :=
  '"' :: (escapeStr s.data ++ ['"'])

/-- Decimal digit character. -/
def digitChar (n : Nat) : Char :=
  match n with
  | 0 => '0' | 1 => '1' | 2 => '2' | 3 => '3' | 4 => '4'
  | 5 => '5' | 6 => '6' | 7 => '7' | 8 => '8' | _ => '9'

/-- Decimal digits of a natural number, most significant first. -/
def natChars (n : Nat) : List Char :=
  if _h : n < 10 then [digitChar n]
  else natChars (n / 10) ++ [digitChar (n % 10)]
decreasing_by
  exact Nat.div_lt_self (by omega) (by omega)

/-- Python `str` of an integer. -/
def intChars : Int → List Char
  | Int.ofNat n => natChars n
  | Int.negSucc n => '-' :: natChars (n + 1)

/-- The indentation of one nesting level under `indent=2`. -/
def spaces (n : Nat) : List Char :=
  List.replicate n ' '

mutual

/-- `json.dumps(v, indent=2)` at indentation level `ind` (in spaces):
containers break onto one line per entry, entries separated by `,`, keys by
`: `, the closing bracket back at the enclosing level. -/
def dumpVal (ind : Nat) : Json → List Char
  | Json.null => ['n', 'u', 'l', 'l']
  | Json.bool true => ['t', 'r', 'u', 'e']
  | Json.bool false => ['f', 'a', 'l', 's', 'e']
  | Json.num i => intChars i
  | Json.str s => quoteStr s
  | Json.arr [] => ['[', ']']
  | Json.arr (x :: xs) =>
    '[' :: '\n' :: (spaces (ind + 2) ++ dumpVal (ind + 2) x ++
      dumpElems (ind + 2) xs ++ '\n' :: (spaces ind ++ [']']))
  | Json.obj [] => ['{', '}']
  | Json.obj ((k, v) :: kvs) =>
    '{' :: '\n' :: (spaces (ind + 2) ++ quoteStr k ++ ':' :: ' ' ::
      (dumpVal (ind + 2) v ++ dumpMembers (ind + 2) kvs ++
        '\n' :: (spaces ind ++ ['}'])))

/-- The remaining array entries, each preceded by `,\n` and the indent. -/
def dumpElems (ind : Nat) : List Json → List Char
  | [] => []
  | x :: xs =>
    ',' :: '\n' :: (spaces ind ++ dumpVal ind x ++ dumpElems ind xs)

/-- The remaining object entries. -/
def dumpMembers (ind : Nat) : List (String × Json) → List Char
  | [] => []
  | (k, v) :: kvs =>
    ',' :: '\n' :: (spaces ind ++ quoteStr k ++ ':' :: ' ' ::
      (dumpVal ind v ++ dumpMembers ind kvs))

end

/-- `json.dumps(v, indent=2)`. -/
def dumps (v : Json) : String :=
  String.mk (dumpVal 0 v)

/-- `_write_json(messages, path)`: the text written is
`json.dumps(list(messages), indent=2)`. -/
def writeJson (messages : List Json) : String :=
  dumps (Json.arr messages)

/-! ### `_transform_message` over JSON values -/

/-- Python truthiness of a JSON value. -/
def pyTruthy : Json → Bool
  | Json.null => false
  | Json.bool b => b
  | Json.num i => decide (i ≠ 0)
  | Json.str s => decide (s ≠ "")
  | Json.arr xs => !xs.isEmpty
  | Json.obj kvs => !kvs.isEmpty

/-- `d.get(key)`: `none` when `d` is not a dict or lacks the key. -/
def jget (j : Json) (key : String) : Option Json :=
  match j with
  | Json.obj kvs => kvs.lookup key
  | _ => none

/-- `d.get(key, default)`. -/
def jgetD (j : Json) (key : String) (dflt : Json) : Json :=
  (jget j key).getD dflt

/-- Python `a or b` on JSON values. -/
def pyOrJson (a b : Json) : Json :=
  if pyTruthy a then a else b

/-- `x or {}`. -/
def orEmptyObj (a : Json) : Json :=
  if pyTruthy a then a else Json.obj []

/-- `_transform_message(message)`: the normalized message dict, fields in
source order. -/
def transformMessage (message : Json) : Json :=
  let fromField := orEmptyObj (jgetD message "from" Json.null)
  let senderInfo := orEmptyObj (jgetD fromField "user" Json.null)
  let senderFallback := orEmptyObj (jgetD fromField "application" Json.null)
  let senderDisplay := pyOrJson (jgetD senderInfo "displayName" Json.null)
    (jgetD senderFallback "displayName" Json.null)
  let senderEmail := pyOrJson (jgetD senderInfo "userPrincipalName" Json.null)
    (jgetD senderInfo "email" Json.null)
  let timestamp := pyOrJson (jgetD message "lastModifiedDateTime" Json.null)
    (jgetD message "createdDateTime" Json.null)
  let body := jgetD message "body" (Json.obj [])
  Json.obj
    [("id", jgetD message "id" Json.null),
     ("sender", senderDisplay),
     ("sender_email", senderEmail),
     ("timestamp", timestamp),
     ("type", jgetD message "messageType" Json.null),
     ("subject", jgetD message "subject" Json.null),
     ("content_type", jgetD body "contentType" Json.null),
     ("content", jgetD body "content" Json.null),
     ("reactions", jgetD message "reactions" (Json.arr [])),
     ("mentions", jgetD message "mentions" (Json.arr [])),
     ("attachments", jgetD message "attachments" (Json.arr []))]

/-! ### The parser (`json.loads`) -/

/-- JSON whitespace. -/
def isJsonWs (c : Char) : Bool :=
  c = ' ' || c = '\t' || c = '\n' || c = '\r'

def skipWs : List Char → List Char
  | [] => []
  | c :: cs => if isJsonWs c then skipWs cs else c :: cs

/-- Value of one hexadecimal digit, either case. -/
def hexDigitVal (c : Char) : Option Nat :=
  if '0' ≤ c && c ≤ '9' then some (c.toNat - 48)
  else if 'a' ≤ c && c ≤ 'f' then some (c.toNat - 87)
  else if 'A' ≤ c && c ≤ 'F' then some (c.toNat - 55)
  else none

/-- Four hexadecimal digits. -/
def parseHex4 : List Char → Option (Nat × List Char)
  | c1 :: c2 :: c3 :: c4 :: rest =>
    match hexDigitVal c1, hexDigitVal c2, hexDigitVal c3, hexDigitVal c4 with
    | some a, some b, some c, some d =>
      some (a * 4096 + b * 256 + c * 16 + d, rest)
    | _, _, _, _ => none
  | _ => none

/-- One escape sequence after the backslash.  A high surrogate must be
followed by a low surrogate (the pair decodes to one scalar); a lone
surrogate is rejected — a Lean `Char` cannot carry it, CPython's leniency
there is unobservable on printed output. -/
def parseEsc : List Char → Option (Char × List Char)
  | '"' :: r => some ('"', r)
  | '\\' :: r => some ('\\', r)
  | '/' :: r => some ('/', r)
  | 'b' :: r => some (Char.ofNat 8, r)
  | 'f' :: r => some (Char.ofNat 12, r)
  | 'n' :: r => some ('\n', r)
  | 'r' :: r => some ('\r', r)
  | 't' :: r => some ('\t', r)
  | 'u' :: r =>
    match parseHex4 r with
    | none => none
    | some (n, r2) =>
      if 55296 ≤ n ∧ n < 56320 then
        match r2 with
        | '\\' :: 'u' :: r3 =>
          match parseHex4 r3 with
          | none => none
          | some (m, r4) =>
            if 56320 ≤ m ∧ m < 57344 then
              some (Char.ofNat (65536 + (n - 55296) * 1024 + (m - 56320)), r4)
            else none
        | _ => none
      else if 56320 ≤ n ∧ n < 57344 then none
      else some (Char.ofNat n, r2)
  | _ => none

/-- The body of a string literal after the opening quote, fueled by the
input length: the characters up to the closing quote, escapes decoded. -/
def parseStrBody : Nat → List Char → Option (List Char × List Char)
  | 0, _ => none
  | _ + 1, [] => none
  | fuel + 1, c :: r =>
    if c = '"' then some ([], r)
    else if c = '\\' then
      match parseEsc r with
      | none => none
      | some (d, r2) =>
        match parseStrBody fuel r2 with
        | none => none
        | some (s, r3) => some (d :: s, r3)
    else
      match parseStrBody fuel r with
      | none => none
      | some (s, r2) => some (c :: s, r2)

/-- Maximal-munch digits with an accumulator. -/
def parseNatAux : List Char → Nat → Nat × List Char
  | [], acc => (acc, [])
  | c :: r, acc =>
    if c.isDigit then parseNatAux r (acc * 10 + (c.toNat - 48))
    else (acc, c :: r)

/-- At least one digit, maximal munch. -/
def parseNat : List Char → Option (Nat × List Char)
  | [] => none
  | c :: r =>
    if c.isDigit then some (parseNatAux r (c.toNat - 48)) else none

mutual

/-- One JSON value, leading whitespace skipped.  The fuel only has to cover
the nesting structure: every recursive call is made after at least one input
character was consumed. -/
def parseVal : Nat → List Char → Option (Json × List Char)
  | 0, _ => none
  | fuel + 1, cs =>
    match skipWs cs with
    | [] => none
    | c :: r =>
      if c = '"' then
        match parseStrBody (r.length + 1) r with
        | none => none
        | some (s, r2) => some (Json.str (String.mk s), r2)
      else if c = 'n' then
        match r with
        | 'u' :: 'l' :: 'l' :: r2 => some (Json.null, r2)
        | _ => none
      else if c = 't' then
        match r with
        | 'r' :: 'u' :: 'e' :: r2 => some (Json.bool true, r2)
        | _ => none
      else if c = 'f' then
        match r with
        | 'a' :: 'l' :: 's' :: 'e' :: r2 => some (Json.bool false, r2)
        | _ => none
      else if c = '-' then
        match parseNat r with
        | none => none
        | some (n, r2) => some (Json.num (-(n : Int)), r2)
      else if c.isDigit then
        match parseNat (c :: r) with
        | none => none
        | some (n, r2) => some (Json.num (n : Int), r2)
      else if c = '[' then
        match skipWs r with
        | [] => none
        | d :: r1 =>
          if d = ']' then some (Json.arr [], r1)
          else
            match parseVal fuel (d :: r1) with
            | none => none
            | some (v, r2) =>
              match parseElems fuel r2 with
              | none => none
              | some (vs, r3) => some (Json.arr (v :: vs), r3)
      else if c = '{' then
        match skipWs r with
        | [] => none
        | d :: r1 =>
          if d = '}' then some (Json.obj [], r1)
          else if d = '"' then
            match parseStrBody (r1.length + 1) r1 with
            | none => none
            | some (k, r2) =>
              match skipWs r2 with
              | [] => none
              | e :: r3 =>
                if e = ':' then
                  match parseVal fuel r3 with
                  | none => none
                  | some (v, r4) =>
                    match parseMembers fuel r4 with
                    | none => none
                    | some (kvs, r5) =>
                      some (Json.obj ((String.mk k, v) :: kvs), r5)
                else none
          else none
      else none

/-- After an array element: `,` and the next element, or the closing `]`. -/
def parseElems : Nat → List Char → Option (List Json × List Char)
  | 0, _ => none
  | fuel + 1, cs =>
    match skipWs cs with
    | [] => none
    | d :: r =>
      if d = ']' then some ([], r)
      else if d = ',' then
        match parseVal fuel r with
        | none => none
        | some (v, r2) =>
          match parseElems fuel r2 with
          | none => none
          | some (vs, r3) => some (v :: vs, r3)
      else none

/-- After an object entry: `,` and the next `"key": value`, or the closing
`}`. -/
def parseMembers : Nat → List Char → Option (List (String × Json) × List Char)
  | 0, _ => none
  | fuel + 1, cs =>
    match skipWs cs with
    | [] => none
    | d :: r =>
      if d = '}' then some ([], r)
      else if d = ',' then
        match skipWs r with
        | [] => none
        | e :: r1 =>
          if e = '"' then
            match parseStrBody (r1.length + 1) r1 with
            | none => none
            | some (k, r2) =>
              match skipWs r2 with
              | [] => none
              | g :: r3 =>
                if g = ':' then
                  match parseVal fuel r3 with
                  | none => none
                  | some (v, r4) =>
                    match parseMembers fuel r4 with
                    | none => none
                    | some (kvs, r5) => some ((String.mk k, v) :: kvs, r5)
                else none
          else none
      else none

end

/-- `json.loads(s)`: one complete value, only whitespace may follow. -/
def loads (s : String) : Option Json :=
  match parseVal (s.length + 1) s.data with
  | none => none
  | some (v, rest) =>
    match skipWs rest with
    | [] => some v
    | _ => none

/-! ### Round-trip proof: auxiliary lemmas -/

/-- The suffix following a printed number must not begin with a digit (the
printer only ever puts `,`, `\n`, `]`, `}` or nothing there). -/
def noDigitStart : List Char → Bool
  | [] => true
  | c :: _ => !c.isDigit

theorem skipWs_nonws (c : Char) (cs : List Char) (h : isJsonWs c = false) :
    skipWs (c :: cs) = c :: cs := by
  simp [skipWs, h]

theorem skipWs_ws_append (l t : List Char)
    (h : ∀ c ∈ l, isJsonWs c = true) : skipWs (l ++ t) = skipWs t := by
  induction l with
  | nil => rfl
  | cons c cs ih =>
    have hc : isJsonWs c = true := h c (by simp)
    simp only [List.cons_append, skipWs, hc, if_true, reduceIte]
    exact ih (fun d hd => h d (by simp [hd]))

theorem spaces_ws (n : Nat) : ∀ c ∈ spaces n, isJsonWs c = true := by
  intro c hc
  rw [spaces] at hc
  have := List.eq_of_mem_replicate hc
  subst this
  rfl

theorem digitChar_isDigit (d : Nat) (h : d < 10) :
    (digitChar d).isDigit = true := by
  interval_cases d <;> decide

theorem digitChar_toNat (d : Nat) (h : d < 10) :
    (digitChar d).toNat = 48 + d := by
  interval_cases d <;> decide

theorem isDigit_toNat (c : Char) (h : c.isDigit = true) :
    48 ≤ c.toNat ∧ c.toNat ≤ 57 := by
  simp [Char.isDigit] at h
  obtain ⟨h1, h2⟩ := h
  constructor
  · exact h1
  · exact h2

theorem natChars_digits : ∀ n, ∀ c ∈ natChars n, c.isDigit = true := by
  intro n
  induction n using Nat.strong_induction_on with
  | _ n ih =>
    intro c hc
    rw [natChars] at hc
    by_cases h : n < 10
    · simp [h] at hc
      subst hc
      exact digitChar_isDigit n h
    · simp [h] at hc
      rcases hc with hc | hc
      · exact ih (n / 10) (Nat.div_lt_self (by omega) (by omega)) c hc
      · subst hc
        exact digitChar_isDigit (n % 10) (Nat.mod_lt _ (by omega))

theorem natChars_ne_nil (n : Nat) : natChars n ≠ [] := by
  rw [natChars]
  by_cases h : n < 10 <;> simp [h]

/-- Value of a digit list, most significant first. -/
def valAux (acc : Nat) (ds : List Char) : Nat :=
  ds.foldl (fun a c => a * 10 + (c.toNat - 48)) acc

theorem valAux_append (acc : Nat) (ds : List Char) (c : Char) :
    valAux acc (ds ++ [c]) = valAux acc ds * 10 + (c.toNat - 48) := by
  simp [valAux]

theorem valAux_natChars : ∀ n, valAux 0 (natChars n) = n := by
  intro n
  induction n using Nat.strong_induction_on with
  | _ n ih =>
    rw [natChars]
    by_cases h : n < 10
    · simp [h, valAux, digitChar_toNat n h]
    · simp only [h, dif_neg, not_false_iff]
      rw [valAux_append, ih (n / 10) (Nat.div_lt_self (by omega) (by omega)),
        digitChar_toNat (n % 10) (Nat.mod_lt _ (by omega))]
      omega

theorem parseNatAux_spec :
    ∀ (ds rest : List Char) (acc : Nat), (∀ c ∈ ds, c.isDigit = true) →
    noDigitStart rest = true →
    parseNatAux (ds ++ rest) acc = (valAux acc ds, rest) := by
  intro ds
  induction ds with
  | nil =>
    intro rest acc _ hrest
    cases rest with
    | nil => simp [parseNatAux, valAux]
    | cons c r =>
      simp only [noDigitStart, Bool.not_eq_true'] at hrest
      simp [parseNatAux, hrest, valAux]
  | cons c ds ih =>
    intro rest acc hds hrest
    have hc : c.isDigit = true := hds c (by simp)
    simp only [List.cons_append, parseNatAux, hc, if_true, reduceIte,
      List.append_eq]
    rw [ih rest _ (fun d hd => hds d (by simp [hd])) hrest]
    rfl

theorem parseNat_digits (ds rest : List Char) (hne : ds ≠ [])
    (hds : ∀ c ∈ ds, c.isDigit = true) (hrest : noDigitStart rest = true) :
    parseNat (ds ++ rest) = some (valAux 0 ds, rest) := by
  cases ds with
  | nil => exact absurd rfl hne
  | cons c ds2 =>
    have hc : c.isDigit = true := hds c (by simp)
    simp only [List.cons_append, parseNat, hc, if_true, reduceIte,
      List.append_eq]
    rw [parseNatAux_spec ds2 rest _ (fun d hd => hds d (by simp [hd])) hrest]
    simp [valAux]

theorem parseNat_natChars (n : Nat) (rest : List Char)
    (hrest : noDigitStart rest = true) :
    parseNat (natChars n ++ rest) = some (n, rest) := by
  rw [parseNat_digits (natChars n) rest (natChars_ne_nil n)
    (natChars_digits n) hrest, valAux_natChars]

theorem hexDigitVal_hexDigitChar (d : Nat) (h : d < 16) :
    hexDigitVal (hexDigitChar d) = some d := by
  interval_cases d <;> decide

theorem parseHex4_hex4 (n : Nat) (h : n < 65536) (rest : List Char) :
    parseHex4 (hex4 n ++ rest) = some (n, rest) := by
  have h1 : n / 4096 % 16 < 16 := Nat.mod_lt _ (by omega)
  have h2 : n / 256 % 16 < 16 := Nat.mod_lt _ (by omega)
  have h3 : n / 16 % 16 < 16 := Nat.mod_lt _ (by omega)
  have h4 : n % 16 < 16 := Nat.mod_lt _ (by omega)
  simp only [hex4, List.cons_append, List.nil_append, parseHex4,
    hexDigitVal_hexDigitChar _ h1, hexDigitVal_hexDigitChar _ h2,
    hexDigitVal_hexDigitChar _ h3, hexDigitVal_hexDigitChar _ h4]
  have hsum : n / 4096 % 16 * 4096 + n / 256 % 16 * 256 + n / 16 % 16 * 16 +
      n % 16 = n := by omega
  rw [hsum]

/-- Every `Char` is a Unicode scalar: below the surrogate block or above it
and below `0x110000`. -/
theorem char_scalar_range (c : Char) :
    c.toNat < 55296 ∨ (57344 ≤ c.toNat ∧ c.toNat < 1114112) := by
  have h := c.valid
  simp [UInt32.isValidChar, Nat.isValidChar] at h
  rcases h with h | ⟨h1, h2⟩
  · left
    exact h
  · right
    exact ⟨h1, h2⟩

/-- The u-branch of `parseEsc`, spelled out (simp with the generated
equations of `parseEsc` is prohibitively slow on symbolic input). -/
theorem parseEsc_u (r : List Char) :
    parseEsc ('u' :: r) =
      (match parseHex4 r with
      | none => none
      | some (n, r2) =>
        if 55296 ≤ n ∧ n < 56320 then
          match r2 with
          | '\\' :: 'u' :: r3 =>
            match parseHex4 r3 with
            | none => none
            | some (m, r4) =>
              if 56320 ≤ m ∧ m < 57344 then
                some (Char.ofNat (65536 + (n - 55296) * 1024 + (m - 56320)),
                  r4)
              else none
          | _ => none
        else if 56320 ≤ n ∧ n < 57344 then none
        else some (Char.ofNat n, r2)) := rfl

/-- One printed character is either a verbatim non-special character or an
escape sequence that `parseEsc` decodes back to it, whatever follows. -/
theorem escape_step (c : Char) (t : List Char) :
    (escapeChar c = [c] ∧ c ≠ '"' ∧ c ≠ '\\') ∨
    (∃ e, escapeChar c = '\\' :: e ∧ parseEsc (e ++ t) = some (c, t)) := by
  by_cases hq : c = '"'
  · right
    exact ⟨['"'], by simp [escapeChar, hq], by subst hq; rfl⟩
  · by_cases hb : c = '\\'
    · right
      exact ⟨['\\'], by simp [escapeChar, hq, hb], by subst hb; rfl⟩
    · by_cases hn : c = '\n'
      · right
        exact ⟨['n'], by simp [escapeChar, hq, hb, hn], by subst hn; rfl⟩
      · by_cases hr : c = '\r'
        · right
          exact ⟨['r'], by simp [escapeChar, hq, hb, hn, hr], by subst hr; rfl⟩
        · by_cases ht : c = '\t'
          · right
            exact ⟨['t'], by simp [escapeChar, hq, hb, hn, hr, ht],
              by subst ht; rfl⟩
          · by_cases h8 : c.toNat = 8
            · right
              refine ⟨['b'], by simp [escapeChar, hq, hb, hn, hr, ht, h8], ?_⟩
              have hc : c = Char.ofNat 8 := by
                rw [← Char.ofNat_toNat c, h8]
              rw [hc]
              rfl
            · by_cases h12 : c.toNat = 12
              · right
                refine ⟨['f'],
                  by simp [escapeChar, hq, hb, hn, hr, ht, h8, h12], ?_⟩
                have hc : c = Char.ofNat 12 := by
                  rw [← Char.ofNat_toNat c, h12]
                rw [hc]
                rfl
              · by_cases hpr : 32 ≤ c.toNat ∧ c.toNat ≤ 126
                · left
                  exact ⟨by simp [escapeChar, hq, hb, hn, hr, ht, h8, h12, hpr],
                    hq, hb⟩
                · by_cases hbmp : c.toNat < 65536
                  · -- basic-plane escape \uXXXX; a Char is never a surrogate
                    right
                    refine ⟨'u' :: hex4 c.toNat,
                      by simp [escapeChar, hq, hb, hn, hr, ht, h8, h12, hpr,
                        hbmp], ?_⟩
                    have hrange := char_scalar_range c
                    have hs1 : ¬ (55296 ≤ c.toNat ∧ c.toNat < 56320) := by
                      omega
                    have hs2 : ¬ (56320 ≤ c.toNat ∧ c.toNat < 57344) := by
                      omega
                    rw [List.cons_append, parseEsc_u,
                      parseHex4_hex4 c.toNat hbmp t]
                    simp only [hs1, hs2, if_false, Char.ofNat_toNat]
                  · -- astral plane: surrogate pair
                    right
                    have hrange := char_scalar_range c
                    have hlt : c.toNat < 1114112 := by omega
                    set m := c.toNat - 65536 with hm
                    have hmlt : m < 1048576 := by omega
                    have hhi : 55296 + m / 1024 < 65536 := by omega
                    have hlo : 56320 + m % 1024 < 65536 := by
                      have := Nat.mod_lt m (show 0 < 1024 by omega)
                      omega
                    refine ⟨'u' :: hex4 (55296 + m / 1024) ++
                      '\\' :: 'u' :: hex4 (56320 + m % 1024), ?_, ?_⟩
                    · simp [escapeChar, hq, hb, hn, hr, ht, h8, h12, hpr, hbmp,
                        hm]
                    · have hs1 : 55296 ≤ 55296 + m / 1024 ∧
                          55296 + m / 1024 < 56320 := by
                        omega
                      have hs2 : 56320 ≤ 56320 + m % 1024 ∧
                          56320 + m % 1024 < 57344 := by
                        have := Nat.mod_lt m (show 0 < 1024 by omega)
                        omega
                      have hdec : 65536 + (55296 + m / 1024 - 55296) * 1024 +
                          (56320 + m % 1024 - 56320) = c.toNat := by
                        have h1 : 55296 + m / 1024 - 55296 = m / 1024 := by
                          omega
                        have h2 : 56320 + m % 1024 - 56320 = m % 1024 := by
                          omega
                        rw [h1, h2]
                        omega
                      have hassoc : ('u' :: hex4 (55296 + m / 1024) ++
                          '\\' :: 'u' :: hex4 (56320 + m % 1024)) ++ t =
                          'u' :: (hex4 (55296 + m / 1024) ++
                            ('\\' :: 'u' :: (hex4 (56320 + m % 1024) ++ t))) := by
                        simp
                      rw [hassoc, parseEsc_u, parseHex4_hex4 _ hhi]
                      simp only [if_pos hs1, parseHex4_hex4 _ hlo, if_pos hs2,
                        hdec, Char.ofNat_toNat]

theorem escapeStr_cons (c : Char) (cs : List Char) :
    escapeStr (c :: cs) = escapeChar c ++ escapeStr cs := rfl

/-- Parsing back an escaped string body: the content characters are recovered
and the text after the closing quote is untouched. -/
theorem parseStrBody_round :
    ∀ (cs t : List Char) (f : Nat),
    parseStrBody (f + (escapeStr cs).length + 1) (escapeStr cs ++ ('"' :: t)) =
      some (cs, t) := by
  intro cs
  induction cs with
  | nil =>
    intro t f
    simp [escapeStr, parseStrBody]
  | cons c cs2 ih =>
    intro t f
    rcases escape_step c (escapeStr cs2 ++ '"' :: t) with
      ⟨hlit, hq, hb⟩ | ⟨e, hesc, hparse⟩
    · have hlen : f + (escapeStr (c :: cs2)).length + 1 =
          (f + (escapeStr cs2).length + 1) + 1 := by
        rw [escapeStr_cons, hlit]
        simp
        omega
      rw [hlen, escapeStr_cons, hlit]
      simp only [List.cons_append, List.nil_append, List.append_eq,
        parseStrBody, if_neg hq, if_neg hb, ih t f]
    · have hlen : f + (escapeStr (c :: cs2)).length + 1 =
          ((f + e.length) + (escapeStr cs2).length + 1) + 1 := by
        rw [escapeStr_cons, hesc]
        simp
        omega
      rw [hlen, escapeStr_cons, hesc]
      have hbs : ('\\' : Char) ≠ '"' := by decide
      simp only [List.cons_append, List.append_eq, List.append_assoc,
        parseStrBody, if_neg hbs, if_pos rfl, reduceIte, hparse,
        ih t (f + e.length)]

/-- The same, at the fuel `parseVal` actually passes (the input length). -/
theorem parseStrBody_len (cs t : List Char) :
    parseStrBody ((escapeStr cs ++ '"' :: t).length + 1)
      (escapeStr cs ++ ('"' :: t)) = some (cs, t) := by
  have harith : (escapeStr cs ++ '"' :: t).length + 1 =
      (t.length + 1) + (escapeStr cs).length + 1 := by
    simp [List.length_append]
    omega
  rw [harith]
  exact parseStrBody_round cs t (t.length + 1)

/-! ### Fuel measure for the parser -/

mutual

/-- Fuel sufficient for `parseVal` on the printed form of `v`. -/
def jfuelV : Json → Nat
  | Json.null => 1
  | Json.bool _ => 1
  | Json.num _ => 1
  | Json.str _ => 1
  | Json.arr xs => jfuelE xs + 1
  | Json.obj kvs => jfuelM kvs + 1

/-- Fuel sufficient for `parseElems` on the printed remaining elements. -/
def jfuelE : List Json → Nat
  | [] => 1
  | x :: xs => jfuelV x + jfuelE xs + 1

/-- Fuel sufficient for `parseMembers` on the printed remaining members. -/
def jfuelM : List (String × Json) → Nat
  | [] => 1
  | (_, v) :: kvs => jfuelV v + jfuelM kvs + 1

end

theorem jfuelV_pos (v : Json) : 1 ≤ jfuelV v := by
  cases v <;> simp [jfuelV]

theorem jfuelE_pos (xs : List Json) : 1 ≤ jfuelE xs := by
  cases xs <;> simp [jfuelE]

theorem jfuelM_pos (kvs : List (String × Json)) : 1 ≤ jfuelM kvs := by
  cases kvs with
  | nil => simp [jfuelM]
  | cons kv kvs => obtain ⟨k, v⟩ := kv; simp [jfuelM]

/-! ### Parser dispatch on the printed head character -/

theorem newlineSpaces_ws (n : Nat) :
    ∀ c ∈ ('\n' :: spaces n), isJsonWs c = true := by
  intro c hc
  rcases List.mem_cons.mp hc with hc | hc
  · subst hc
    rfl
  · exact spaces_ws n c hc

theorem parseVal_quote (f : Nat) (r : List Char) :
    parseVal (f + 1) ('"' :: r) =
      (match parseStrBody (r.length + 1) r with
      | none => none
      | some (s, r2) => some (Json.str (String.mk s), r2)) := rfl

theorem parseVal_null (f : Nat) (r : List Char) :
    parseVal (f + 1) ('n' :: 'u' :: 'l' :: 'l' :: r) =
      some (Json.null, r) := rfl

theorem parseVal_true (f : Nat) (r : List Char) :
    parseVal (f + 1) ('t' :: 'r' :: 'u' :: 'e' :: r) =
      some (Json.bool true, r) := rfl

theorem parseVal_false (f : Nat) (r : List Char) :
    parseVal (f + 1) ('f' :: 'a' :: 'l' :: 's' :: 'e' :: r) =
      some (Json.bool false, r) := rfl

theorem parseVal_neg (f : Nat) (r : List Char) :
    parseVal (f + 1) ('-' :: r) =
      (match parseNat r with
      | none => none
      | some (n, r2) => some (Json.num (-(n : Int)), r2)) := rfl

theorem parseVal_arr (f : Nat) (r : List Char) :
    parseVal (f + 1) ('[' :: r) =
      (match skipWs r with
      | [] => none
      | d :: r1 =>
        if d = ']' then some (Json.arr [], r1)
        else
          match parseVal f (d :: r1) with
          | none => none
          | some (v, r2) =>
            match parseElems f r2 with
            | none => none
            | some (vs, r3) => some (Json.arr (v :: vs), r3)) := rfl

theorem parseVal_obj (f : Nat) (r : List Char) :
    parseVal (f + 1) ('{' :: r) =
      (match skipWs r with
      | [] => none
      | d :: r1 =>
        if d = '}' then some (Json.obj [], r1)
        else if d = '"' then
          match parseStrBody (r1.length + 1) r1 with
          | none => none
          | some (k, r2) =>
            match skipWs r2 with
            | [] => none
            | e :: r3 =>
              if e = ':' then
                match parseVal f r3 with
                | none => none
                | some (v, r4) =>
                  match parseMembers f r4 with
                  | none => none
                  | some (kvs, r5) =>
                    some (Json.obj ((String.mk k, v) :: kvs), r5)
              else none
        else none) := rfl

theorem parseElems_close (f : Nat) (r : List Char) :
    parseElems (f + 1) (']' :: r) = some ([], r) := rfl

theorem parseElems_comma (f : Nat) (r : List Char) :
    parseElems (f + 1) (',' :: r) =
      (match parseVal f r with
      | none => none
      | some (v, r2) =>
        match parseElems f r2 with
        | none => none
        | some (vs, r3) => some (v :: vs, r3)) := rfl

theorem parseMembers_close (f : Nat) (r : List Char) :
    parseMembers (f + 1) ('}' :: r) = some ([], r) := rfl

theorem parseMembers_comma (f : Nat) (r : List Char) :
    parseMembers (f + 1) (',' :: r) =
      (match skipWs r with
      | [] => none
      | e :: r1 =>
        if e = '"' then
          match parseStrBody (r1.length + 1) r1 with
          | none => none
          | some (k, r2) =>
            match skipWs r2 with
            | [] => none
            | g :: r3 =>
              if g = ':' then
                match parseVal f r3 with
                | none => none
                | some (v, r4) =>
                  match parseMembers f r4 with
                  | none => none
                  | some (kvs, r5) => some ((String.mk k, v) :: kvs, r5)
              else none
        else none) := rfl

theorem parseVal_ws (fuel : Nat) (l cs : List Char)
    (h : ∀ c ∈ l, isJsonWs c = true) :
    parseVal fuel (l ++ cs) = parseVal fuel cs := by
  cases fuel with
  | zero => rfl
  | succ f =>
    conv_lhs => rw [parseVal]
    conv_rhs => rw [parseVal]
    rw [skipWs_ws_append l cs h]

theorem parseElems_ws (fuel : Nat) (l cs : List Char)
    (h : ∀ c ∈ l, isJsonWs c = true) :
    parseElems fuel (l ++ cs) = parseElems fuel cs := by
  cases fuel with
  | zero => rfl
  | succ f =>
    conv_lhs => rw [parseElems]
    conv_rhs => rw [parseElems]
    rw [skipWs_ws_append l cs h]

theorem parseMembers_ws (fuel : Nat) (l cs : List Char)
    (h : ∀ c ∈ l, isJsonWs c = true) :
    parseMembers fuel (l ++ cs) = parseMembers fuel cs := by
  cases fuel with
  | zero => rfl
  | succ f =>
    conv_lhs => rw [parseMembers]
    conv_rhs => rw [parseMembers]
    rw [skipWs_ws_append l cs h]

/-- A decimal digit character is one of the ten literals. -/
theorem digit_char_cases (c : Char) (h : c.isDigit = true) :
    c = '0' ∨ c = '1' ∨ c = '2' ∨ c = '3' ∨ c = '4' ∨ c = '5' ∨ c = '6' ∨
      c = '7' ∨ c = '8' ∨ c = '9' := by
  obtain ⟨h1, h2⟩ := isDigit_toNat c h
  have hofn := Char.ofNat_toNat c
  interval_cases hcn : c.toNat <;> subst hofn <;> decide

theorem parseVal_digit (f : Nat) (c : Char) (r : List Char)
    (h : c.isDigit = true) :
    parseVal (f + 1) (c :: r) =
      (match parseNat (c :: r) with
      | none => none
      | some (n, r2) => some (Json.num (n : Int), r2)) := by
  rcases digit_char_cases c h with h | h | h | h | h | h | h | h | h | h <;>
    subst h <;> rfl

/-- The first character printed for a value: never whitespace, never a
closing bracket. -/
theorem dumpVal_head (ind : Nat) (v : Json) :
    ∃ c t, dumpVal ind v = c :: t ∧ isJsonWs c = false ∧ ¬ c = ']' := by
  cases v with
  | null => exact ⟨'n', _, rfl, by decide, by decide⟩
  | bool b => cases b with
    | true => exact ⟨'t', _, rfl, by decide, by decide⟩
    | false => exact ⟨'f', _, rfl, by decide, by decide⟩
  | num i =>
    cases i with
    | ofNat n =>
      rcases hnc : natChars n with _ | ⟨c, t⟩
      · exact absurd hnc (natChars_ne_nil n)
      · have hc : c.isDigit = true := by
          apply natChars_digits n
          rw [hnc]
          simp
        obtain ⟨hl, hu⟩ := isDigit_toNat c hc
        refine ⟨c, t, by simp [dumpVal, intChars, hnc], ?_, ?_⟩
        · simp only [isJsonWs, Bool.or_eq_false_iff, decide_eq_false_iff_not]
          refine ⟨⟨⟨?_, ?_⟩, ?_⟩, ?_⟩ <;>
            intro hcc <;> rw [hcc] at hl hu <;> simp at hl hu
        · intro hcc
          rw [hcc] at hl hu
          simp at hl hu
    | negSucc n =>
      exact ⟨'-', natChars (n + 1), rfl, by decide, by decide⟩
  | str s =>
    exact ⟨'"', escapeStr s.data ++ ['"'], rfl, by decide, by decide⟩
  | arr xs =>
    cases xs with
    | nil => exact ⟨'[', _, rfl, by decide, by decide⟩
    | cons x xs => exact ⟨'[', _, rfl, by decide, by decide⟩
  | obj kvs =>
    cases kvs with
    | nil => exact ⟨'{', _, rfl, by decide, by decide⟩
    | cons kv kvs =>
      obtain ⟨k, v⟩ := kv
      exact ⟨'{', _, rfl, by decide, by decide⟩

/-- What follows a printed array element never starts with a digit. -/
theorem noDigitStart_elems (ind : Nat) (xs : List Json) (t : List Char) :
    noDigitStart (dumpElems ind xs ++ '\n' :: t) = true := by
  cases xs with
  | nil => rfl
  | cons x xs => rfl

/-- What follows a printed object member never starts with a digit. -/
theorem noDigitStart_members (ind : Nat) (kvs : List (String × Json))
    (t : List Char) :
    noDigitStart (dumpMembers ind kvs ++ '\n' :: t) = true := by
  cases kvs with
  | nil => rfl
  | cons kv kvs =>
    obtain ⟨k, v⟩ := kv
    rfl

theorem neg_coe_succ (n : Nat) : -((n + 1 : Nat) : Int) = Int.negSucc n := by
  rw [Int.negSucc_eq]
  push_cast
  ring

theorem skipWs_nl (n : Nat) (t : List Char) :
    skipWs ('\n' :: (spaces n ++ t)) = skipWs t :=
  skipWs_ws_append ('\n' :: spaces n) t (newlineSpaces_ws n)

theorem parseVal_nl (fuel n : Nat) (t : List Char) :
    parseVal fuel ('\n' :: (spaces n ++ t)) = parseVal fuel t :=
  parseVal_ws fuel ('\n' :: spaces n) t (newlineSpaces_ws n)

theorem parseElems_nl (fuel n : Nat) (t : List Char) :
    parseElems fuel ('\n' :: (spaces n ++ t)) = parseElems fuel t :=
  parseElems_ws fuel ('\n' :: spaces n) t (newlineSpaces_ws n)

theorem parseMembers_nl (fuel n : Nat) (t : List Char) :
    parseMembers fuel ('\n' :: (spaces n ++ t)) = parseMembers fuel t :=
  parseMembers_ws fuel ('\n' :: spaces n) t (newlineSpaces_ws n)

/-- Round-trip of one printed value, whatever non-digit-leading text
follows. -/
def ValRound (v : Json) : Prop :=
  ∀ ind f rest, noDigitStart rest = true →
    parseVal (jfuelV v + f) (dumpVal ind v ++ rest) = some (v, rest)

/-- Round-trip of the printed remaining array elements up to the closing
bracket. -/
def ElemsRound (xs : List Json) : Prop :=
  ∀ ind iw f rest,
    parseElems (jfuelE xs + f)
      (dumpElems ind xs ++ '\n' :: (spaces iw ++ ']' :: rest)) =
      some (xs, rest)

/-- Round-trip of the printed remaining object members up to the closing
brace. -/
def MembersRound (kvs : List (String × Json)) : Prop :=
  ∀ ind iw f rest,
    parseMembers (jfuelM kvs + f)
      (dumpMembers ind kvs ++ '\n' :: (spaces iw ++ '}' :: rest)) =
      some (kvs, rest)

theorem roundAux : ∀ N : Nat,
    (∀ v, jfuelV v ≤ N → ValRound v) ∧
    (∀ xs, jfuelE xs ≤ N → ElemsRound xs) ∧
    (∀ kvs, jfuelM kvs ≤ N → MembersRound kvs) := by
  intro N
  induction N with
  | zero =>
    refine ⟨fun v hle => ?_, fun xs hle => ?_, fun kvs hle => ?_⟩
    · have := jfuelV_pos v
      omega
    · have := jfuelE_pos xs
      omega
    · have := jfuelM_pos kvs
      omega
  | succ N ih =>
    obtain ⟨ihV, ihE, ihM⟩ := ih
    refine ⟨fun v hle => ?_, fun xs hle => ?_, fun kvs hle => ?_⟩
    · cases v with
      | null =>
        intro ind f rest hrest
        have hf : jfuelV Json.null + f = f + 1 := by
          simp only [jfuelV]
          omega
        rw [hf]
        rfl
      | bool b =>
        intro ind f rest hrest
        have hf : jfuelV (Json.bool b) + f = f + 1 := by
          simp only [jfuelV]
          omega
        rw [hf]
        cases b <;> rfl
      | num i =>
        cases i with
        | ofNat n =>
          intro ind f rest hrest
          have hf : jfuelV (Json.num (Int.ofNat n)) + f = f + 1 := by
            simp only [jfuelV]
            omega
          rw [hf]
          rcases hnc : natChars n with _ | ⟨c, tx⟩
          · exact absurd hnc (natChars_ne_nil n)
          · have hc : c.isDigit = true := by
              apply natChars_digits n
              rw [hnc]
              simp
            have hshape : dumpVal ind (Json.num (Int.ofNat n)) ++ rest =
                c :: (tx ++ rest) := by
              simp [dumpVal, intChars, hnc]
            rw [hshape, parseVal_digit f c (tx ++ rest) hc]
            have hback : (c :: (tx ++ rest) : List Char) =
                natChars n ++ rest := by
              rw [hnc]
              rfl
            rw [hback]
            simp only [parseNat_natChars n rest hrest]
            rfl
        | negSucc n =>
          intro ind f rest hrest
          have hf : jfuelV (Json.num (Int.negSucc n)) + f = f + 1 := by
            simp only [jfuelV]
            omega
          have hshape : dumpVal ind (Json.num (Int.negSucc n)) ++ rest =
              '-' :: (natChars (n + 1) ++ rest) := by
            simp [dumpVal, intChars]
          rw [hf, hshape, parseVal_neg]
          simp only [parseNat_natChars (n + 1) rest hrest]
          rw [neg_coe_succ]
      | str s =>
        intro ind f rest hrest
        have hf : jfuelV (Json.str s) + f = f + 1 := by
          simp only [jfuelV]
          omega
        have hshape : dumpVal ind (Json.str s) ++ rest =
            '"' :: (escapeStr s.data ++ ('"' :: rest)) := by
          simp [dumpVal, quoteStr]
        rw [hf, hshape, parseVal_quote]
        simp only [parseStrBody_len s.data rest]
      | arr l =>
        cases l with
        | nil =>
          intro ind f rest hrest
          have hf : jfuelV (Json.arr []) + f = (f + 1) + 1 := by
            simp only [jfuelV, jfuelE]
            omega
          rw [hf]
          rfl
        | cons x xs =>
          intro ind f rest hrest
          have hp1 := jfuelV_pos x
          have hp2 := jfuelE_pos xs
          have hle2 : jfuelV x ≤ N ∧ jfuelE xs ≤ N := by
            simp only [jfuelV, jfuelE] at hle
            constructor <;> omega
          obtain ⟨c, tx, hct, hcw, hcne⟩ := dumpVal_head (ind + 2) x
          have hf : jfuelV (Json.arr (x :: xs)) + f =
              (jfuelV x + jfuelE xs + 1 + f) + 1 := by
            simp only [jfuelV, jfuelE]
            omega
          rw [hf]
          simp only [dumpVal, List.cons_append, List.append_assoc,
            List.nil_append]
          rw [parseVal_arr, skipWs_nl, hct, List.cons_append,
            skipWs_nonws c _ hcw]
          have hx := ihV x hle2.1 (ind + 2) (jfuelE xs + 1 + f)
            (dumpElems (ind + 2) xs ++ '\n' :: (spaces ind ++ ']' :: rest))
            (noDigitStart_elems (ind + 2) xs (spaces ind ++ ']' :: rest))
          rw [hct, List.cons_append] at hx
          have hfx : jfuelV x + (jfuelE xs + 1 + f) =
              jfuelV x + jfuelE xs + 1 + f := by omega
          rw [hfx] at hx
          have hE := ihE xs hle2.2 (ind + 2) ind (jfuelV x + 1 + f) rest
          have hfE : jfuelE xs + (jfuelV x + 1 + f) =
              jfuelV x + jfuelE xs + 1 + f := by omega
          rw [hfE] at hE
          simp only [if_neg hcne, hx, hE]
      | obj l =>
        cases l with
        | nil =>
          intro ind f rest hrest
          have hf : jfuelV (Json.obj []) + f = (f + 1) + 1 := by
            simp only [jfuelV, jfuelM]
            omega
          rw [hf]
          rfl
        | cons kv kvs =>
          obtain ⟨k, v⟩ := kv
          intro ind f rest hrest
          have hp1 := jfuelV_pos v
          have hp2 := jfuelM_pos kvs
          have hle2 : jfuelV v ≤ N ∧ jfuelM kvs ≤ N := by
            simp only [jfuelV, jfuelM] at hle
            constructor <;> omega
          have hf : jfuelV (Json.obj ((k, v) :: kvs)) + f =
              (jfuelV v + jfuelM kvs + 1 + f) + 1 := by
            simp only [jfuelV, jfuelM]
            omega
          rw [hf]
          simp only [dumpVal, quoteStr, List.cons_append, List.append_assoc,
            List.nil_append]
          rw [parseVal_obj, skipWs_nl, skipWs_nonws '"' _ (by decide)]
          have hkey := parseStrBody_len k.data (':' :: ' ' ::
            (dumpVal (ind + 2) v ++ (dumpMembers (ind + 2) kvs ++
              '\n' :: (spaces ind ++ '}' :: rest))))
          have hcolon : skipWs (':' :: ' ' ::
              (dumpVal (ind + 2) v ++ (dumpMembers (ind + 2) kvs ++
                '\n' :: (spaces ind ++ '}' :: rest)))) =
              ':' :: ' ' :: (dumpVal (ind + 2) v ++
                (dumpMembers (ind + 2) kvs ++
                  '\n' :: (spaces ind ++ '}' :: rest))) :=
            skipWs_nonws ':' _ (by decide)
          have hsp : parseVal (jfuelV v + jfuelM kvs + 1 + f) (' ' ::
              (dumpVal (ind + 2) v ++ (dumpMembers (ind + 2) kvs ++
                '\n' :: (spaces ind ++ '}' :: rest)))) =
              parseVal (jfuelV v + jfuelM kvs + 1 + f)
                (dumpVal (ind + 2) v ++ (dumpMembers (ind + 2) kvs ++
                  '\n' :: (spaces ind ++ '}' :: rest))) :=
            parseVal_ws _ [' '] _ (by decide)
          have hv := ihV v hle2.1 (ind + 2) (jfuelM kvs + 1 + f)
            (dumpMembers (ind + 2) kvs ++ '\n' :: (spaces ind ++ '}' :: rest))
            (noDigitStart_members (ind + 2) kvs (spaces ind ++ '}' :: rest))
          have hfv : jfuelV v + (jfuelM kvs + 1 + f) =
              jfuelV v + jfuelM kvs + 1 + f := by omega
          rw [hfv] at hv
          have hM := ihM kvs hle2.2 (ind + 2) ind (jfuelV v + 1 + f) rest
          have hfM : jfuelM kvs + (jfuelV v + 1 + f) =
              jfuelV v + jfuelM kvs + 1 + f := by omega
          rw [hfM] at hM
          simp only [reduceIte, hkey, hcolon, hsp, hv, hM]
          rw [if_neg (show ¬ ('"' : Char) = '}' by decide)]
    · cases xs with
      | nil =>
        intro ind iw f rest
        have hf : jfuelE ([] : List Json) + f = f + 1 := by
          simp only [jfuelE]
          omega
        rw [hf]
        have hsh : dumpElems ind ([] : List Json) ++
            '\n' :: (spaces iw ++ ']' :: rest) =
            '\n' :: (spaces iw ++ ']' :: rest) := by
          simp [dumpElems]
        rw [hsh, parseElems_nl, parseElems_close]
      | cons x xs =>
        intro ind iw f rest
        have hp1 := jfuelV_pos x
        have hp2 := jfuelE_pos xs
        have hle2 : jfuelV x ≤ N ∧ jfuelE xs ≤ N := by
          simp only [jfuelE] at hle
          constructor <;> omega
        have hf : jfuelE (x :: xs) + f = (jfuelV x + jfuelE xs + f) + 1 := by
          simp only [jfuelE]
          omega
        rw [hf]
        simp only [dumpElems, List.cons_append, List.append_assoc]
        rw [parseElems_comma, parseVal_nl]
        have hx := ihV x hle2.1 ind (jfuelE xs + f)
          (dumpElems ind xs ++ '\n' :: (spaces iw ++ ']' :: rest))
          (noDigitStart_elems ind xs (spaces iw ++ ']' :: rest))
        have hfx : jfuelV x + (jfuelE xs + f) =
            jfuelV x + jfuelE xs + f := by omega
        rw [hfx] at hx
        have hE := ihE xs hle2.2 ind iw (jfuelV x + f) rest
        have hfE : jfuelE xs + (jfuelV x + f) =
            jfuelV x + jfuelE xs + f := by omega
        rw [hfE] at hE
        simp only [hx, hE]
    · cases kvs with
      | nil =>
        intro ind iw f rest
        have hf : jfuelM ([] : List (String × Json)) + f = f + 1 := by
          simp only [jfuelM]
          omega
        rw [hf]
        have hsh : dumpMembers ind ([] : List (String × Json)) ++
            '\n' :: (spaces iw ++ '}' :: rest) =
            '\n' :: (spaces iw ++ '}' :: rest) := by
          simp [dumpMembers]
        rw [hsh, parseMembers_nl, parseMembers_close]
      | cons kv kvs =>
        obtain ⟨k, v⟩ := kv
        intro ind iw f rest
        have hp1 := jfuelV_pos v
        have hp2 := jfuelM_pos kvs
        have hle2 : jfuelV v ≤ N ∧ jfuelM kvs ≤ N := by
          simp only [jfuelM] at hle
          constructor <;> omega
        have hf : jfuelM ((k, v) :: kvs) + f =
            (jfuelV v + jfuelM kvs + f) + 1 := by
          simp only [jfuelM]
          omega
        rw [hf]
        simp only [dumpMembers, quoteStr, List.cons_append, List.append_assoc,
          List.nil_append]
        rw [parseMembers_comma, skipWs_nl, skipWs_nonws '"' _ (by decide)]
        have hkey := parseStrBody_len k.data (':' :: ' ' ::
          (dumpVal ind v ++ (dumpMembers ind kvs ++
            '\n' :: (spaces iw ++ '}' :: rest))))
        have hcolon : skipWs (':' :: ' ' ::
            (dumpVal ind v ++ (dumpMembers ind kvs ++
              '\n' :: (spaces iw ++ '}' :: rest)))) =
            ':' :: ' ' :: (dumpVal ind v ++ (dumpMembers ind kvs ++
              '\n' :: (spaces iw ++ '}' :: rest))) :=
          skipWs_nonws ':' _ (by decide)
        have hsp : parseVal (jfuelV v + jfuelM kvs + f) (' ' ::
            (dumpVal ind v ++ (dumpMembers ind kvs ++
              '\n' :: (spaces iw ++ '}' :: rest)))) =
            parseVal (jfuelV v + jfuelM kvs + f)
              (dumpVal ind v ++ (dumpMembers ind kvs ++
                '\n' :: (spaces iw ++ '}' :: rest))) :=
          parseVal_ws _ [' '] _ (by decide)
        have hv := ihV v hle2.1 ind (jfuelM kvs + f)
          (dumpMembers ind kvs ++ '\n' :: (spaces iw ++ '}' :: rest))
          (noDigitStart_members ind kvs (spaces iw ++ '}' :: rest))
        have hfv : jfuelV v + (jfuelM kvs + f) =
            jfuelV v + jfuelM kvs + f := by omega
        rw [hfv] at hv
        have hM := ihM kvs hle2.2 ind iw (jfuelV v + f) rest
        have hfM : jfuelM kvs + (jfuelV v + f) =
            jfuelV v + jfuelM kvs + f := by omega
        rw [hfM] at hM
        simp only [reduceIte, hkey, hcolon, hsp, hv, hM]

theorem jfuel_le_len : ∀ N : Nat,
    (∀ v, jfuelV v ≤ N → ∀ ind, jfuelV v ≤ (dumpVal ind v).length + 1) ∧
    (∀ xs, jfuelE xs ≤ N →
      ∀ ind, jfuelE xs ≤ (dumpElems ind xs).length + 1) ∧
    (∀ kvs, jfuelM kvs ≤ N →
      ∀ ind, jfuelM kvs ≤ (dumpMembers ind kvs).length + 1) := by
  intro N
  induction N with
  | zero =>
    refine ⟨fun v hle => ?_, fun xs hle => ?_, fun kvs hle => ?_⟩
    · have := jfuelV_pos v
      omega
    · have := jfuelE_pos xs
      omega
    · have := jfuelM_pos kvs
      omega
  | succ N ih =>
    obtain ⟨ihV, ihE, ihM⟩ := ih
    refine ⟨fun v hle ind => ?_, fun xs hle ind => ?_, fun kvs hle ind => ?_⟩
    · cases v with
      | null => simp [jfuelV, dumpVal]
      | bool b => cases b <;> simp [jfuelV, dumpVal]
      | num i =>
        simp only [jfuelV]
        omega
      | str s =>
        simp only [jfuelV]
        omega
      | arr l =>
        cases l with
        | nil => simp [jfuelV, jfuelE, dumpVal]
        | cons x xs =>
          have hp1 := jfuelV_pos x
          have hp2 := jfuelE_pos xs
          have hle2 : jfuelV x ≤ N ∧ jfuelE xs ≤ N := by
            simp only [jfuelV, jfuelE] at hle
            constructor <;> omega
          have h1 := ihV x hle2.1 (ind + 2)
          have h2 := ihE xs hle2.2 (ind + 2)
          simp only [jfuelV, jfuelE]
          simp [dumpVal, spaces]
          omega
      | obj l =>
        cases l with
        | nil => simp [jfuelV, jfuelM, dumpVal]
        | cons kv kvs =>
          obtain ⟨k, v⟩ := kv
          have hp1 := jfuelV_pos v
          have hp2 := jfuelM_pos kvs
          have hle2 : jfuelV v ≤ N ∧ jfuelM kvs ≤ N := by
            simp only [jfuelV, jfuelM] at hle
            constructor <;> omega
          have h1 := ihV v hle2.1 (ind + 2)
          have h2 := ihM kvs hle2.2 (ind + 2)
          simp only [jfuelV, jfuelM]
          simp [dumpVal, spaces, quoteStr]
          omega
    · cases xs with
      | nil => simp [jfuelE, dumpElems]
      | cons x xs =>
        have hp1 := jfuelV_pos x
        have hp2 := jfuelE_pos xs
        have hle2 : jfuelV x ≤ N ∧ jfuelE xs ≤ N := by
          simp only [jfuelE] at hle
          constructor <;> omega
        have h1 := ihV x hle2.1 ind
        have h2 := ihE xs hle2.2 ind
        simp only [jfuelE]
        simp [dumpElems, spaces]
        omega
    · cases kvs with
      | nil => simp [jfuelM, dumpMembers]
      | cons kv kvs =>
        obtain ⟨k, v⟩ := kv
        have hp1 := jfuelV_pos v
        have hp2 := jfuelM_pos kvs
        have hle2 : jfuelV v ≤ N ∧ jfuelM kvs ≤ N := by
          simp only [jfuelM] at hle
          constructor <;> omega
        have h1 := ihV v hle2.1 ind
        have h2 := ihM kvs hle2.2 ind
        simp only [jfuelM]
        simp [dumpMembers, spaces, quoteStr]
        omega

/-- `json.loads` inverts `json.dumps(·, indent=2)` on every JSON value. -/
theorem loads_dumps (v : Json) : loads (dumps v) = some v := by
  have hb := (jfuel_le_len (jfuelV v)).1 v le_rfl 0
  have hV := (roundAux (jfuelV v)).1 v le_rfl 0
    ((dumpVal 0 v).length + 1 - jfuelV v) [] rfl
  rw [List.append_nil] at hV
  have hfuel : jfuelV v + ((dumpVal 0 v).length + 1 - jfuelV v) =
      (dumpVal 0 v).length + 1 := by omega
  rw [hfuel] at hV
  have hdata : (dumps v).data = dumpVal 0 v := rfl
  have hlen : (dumps v).length = (dumpVal 0 v).length := rfl
  simp only [loads, hlen, hdata, hV, skipWs]

/-- C8: for every list of normalized messages (the outputs of
`_transform_message`), rendering it with `_write_json` — which writes
`json.dumps(list(messages), indent=2)` — and parsing the text back with
`json.loads` yields exactly the JSON array of the normalized input list,
field for field. -/
theorem write_json_round_trip (messages : List Json) :
    loads (writeJson (messages.map transformMessage)) =
      some (Json.arr (messages.map transformMessage)) :=
  loads_dumps (Json.arr (messages.map transformMessage))

end TeamsExport
